import Mathlib

/-!
Verification of the authentication core of the inventory-management backend
(`app/adapters/auth/jwt_manager.py`, `app/api/dependencies.py`,
`app/api/v1/auth_router.py`, `app/application/services/user_application_service.py`,
`app/domain/services/user_service.py`, `app/application/dto/user_dto.py`).

The Python code delegates token serialization to the `python-jose` library and
password hashing to `passlib`/bcrypt.  Those library layers are modelled here
byte-for-byte where the repository's behaviour depends on them: base64url with
Python's lenient `base64.urlsafe_b64decode` semantics, UTF-8, the compact flat
JSON objects `json.dumps`/`json.loads` exchange for JWT headers and claims, the
jose decode pipeline (segment split, padding, signature, `exp` validation), and
passlib's bcrypt hash-string format.  The HMAC digest itself and the bcrypt
digest are abstract function parameters (`Mac`, `BcryptDigest`): every theorem
holds for an arbitrary digest function, and witnesses instantiate concrete ones.

Machine integers do not occur: bytes are `Nat` values < 256, timestamps are
`Int` seconds (jose truncates instants to whole seconds via
`timegm(utctimetuple())`).
-/

namespace InvAuth

/-! ### base64url (jose `base64url_decode` / `base64url_encode`)

jose strips the `=` padding from encoder output and, before decoding, re-pads
the raw input to a multiple of four and calls Python's lenient
`base64.urlsafe_b64decode`, which discards non-alphabet characters, rejects a
data-character count of 1 mod 4 (or missing padding), and silently ignores
unused trailing bits of the final group. -/

/-- The base64url alphabet in index order. -/
def b64Alphabet : List Char :=
  "ABCDEFGHIJKLMNOPQRSTUVWXYZabcdefghijklmnopqrstuvwxyz0123456789-_".data

/-- Character for a 6-bit value. -/
def encB64 (k : Nat) : Char := b64Alphabet.getD k 'A'

/-- 6-bit value of an alphabet character, `none` for non-alphabet characters. -/
def decB64? (c : Char) : Option Nat := b64Alphabet.indexOf? c

/-- Whether a character belongs to the base64url alphabet. -/
def isB64 (c : Char) : Bool := (decB64? c).isSome

/-- 6-bit groups of a byte sequence (bytes taken mod 256 into 6-bit values;
short final groups carry zero padding bits, as in `base64.urlsafe_b64encode`). -/
def encVals : List Nat → List Nat
  | [] => []
  | [b0] => [b0 / 4 % 64, b0 % 4 * 16]
  | [b0, b1] => [b0 / 4 % 64, b0 % 4 * 16 + b1 / 16 % 16, b1 % 16 * 4]
  | b0 :: b1 :: b2 :: rest =>
    (b0 / 4 % 64) :: (b0 % 4 * 16 + b1 / 16 % 16) :: (b1 % 16 * 4 + b2 / 64 % 4)
      :: (b2 % 64) :: encVals rest

/-- base64url encoding with padding stripped (jose `base64url_encode`). -/
def b64e (bs : List Nat) : List Char := (encVals bs).map encB64

/-- Decode a list of 6-bit values into bytes; a remainder of one value is a
padding error, unused trailing bits of the final group are discarded (this is
`binascii.a2b_base64`'s treatment of the data characters). -/
def b64dVals : List Nat → Option (List Nat)
  | [] => some []
  | [_] => none
  | [v0, v1] => some [v0 * 4 + v1 / 16]
  | [v0, v1, v2] => some [v0 * 4 + v1 / 16, v1 % 16 * 16 + v2 / 4]
  | v0 :: v1 :: v2 :: v3 :: rest =>
    (b64dVals rest).map
      (fun bs => (v0 * 4 + v1 / 16) :: (v1 % 16 * 16 + v2 / 4) :: (v2 % 4 * 64 + v3) :: bs)

/-- jose `base64url_decode`: pad the raw input to a multiple of four, then
decode leniently — non-alphabet characters are discarded, and the decode fails
when the surviving data characters cannot be completed by the available
padding (Python raises `binascii.Error`, which jose maps to a padding error).
`=` characters inside the input are modelled as contributing padding, which is
exact for the inputs that occur here (segments with `=` only at the end). -/
def b64d (cs : List Char) : Option (List Nat) :=
  let pads := (cs.filter (· == '=')).length + (4 - cs.length % 4) % 4
  let digits := cs.filterMap decB64?
  let rem := digits.length % 4
  if rem == 1 then none
  else if rem == 2 && pads < 2 then none
  else if rem == 3 && pads < 1 then none
  else b64dVals digits

/-! ### UTF-8 (Python `str.encode('utf-8')` / `bytes.decode('utf-8')`)

Only the ASCII fragment is exercised by the theorems (JWT segments and the
JSON this application serializes are ASCII); the multi-byte cases are kept so
the functions are total on all inputs. -/

/-- UTF-8 bytes of one character. -/
def utf8Char (c : Char) : List Nat :=
  let n := c.toNat
  if n < 0x80 then [n]
  else if n < 0x800 then [0xC0 + n / 64, 0x80 + n % 64]
  else if n < 0x10000 then [0xE0 + n / 4096, 0x80 + n / 64 % 64, 0x80 + n % 64]
  else [0xF0 + n / 0x40000, 0x80 + n / 4096 % 64, 0x80 + n / 64 % 64, 0x80 + n % 64]

/-- UTF-8 bytes of a character sequence. -/
def utf8 (cs : List Char) : List Nat := (cs.map utf8Char).flatten

/-- Whether a byte is a UTF-8 continuation byte (`10xxxxxx`). -/
def isCont (b : Nat) : Bool := 0x80 ≤ b && b < 0xC0

/-- Decode one UTF-8 codepoint: the leading byte, the remaining bytes, and on
success the character with the bytes after it.  Overlong/surrogate rejection
in the multi-byte cases follows the standard checks. -/
def utf8dOne (b : Nat) (rest : List Nat) : Option (Char × List Nat) :=
  if b < 0x80 then some (Char.ofNat b, rest)
  else if b < 0xC2 then none
  else if b < 0xE0 then
    match rest with
    | b1 :: r =>
      if isCont b1 then some (Char.ofNat ((b - 0xC0) * 64 + (b1 - 0x80)), r) else none
    | [] => none
  else if b < 0xF0 then
    match rest with
    | b1 :: b2 :: r =>
      let n := (b - 0xE0) * 4096 + (b1 - 0x80) * 64 + (b2 - 0x80)
      if isCont b1 && isCont b2 && 0x800 ≤ n && ¬(0xD800 ≤ n && n < 0xE000) then
        some (Char.ofNat n, r)
      else none
    | _ => none
  else if b < 0xF5 then
    match rest with
    | b1 :: b2 :: b3 :: r =>
      let n := (b - 0xF0) * 0x40000 + (b1 - 0x80) * 4096 + (b2 - 0x80) * 64 + (b3 - 0x80)
      if isCont b1 && isCont b2 && isCont b3 && 0x10000 ≤ n && n < 0x110000 then
        some (Char.ofNat n, r)
      else none
    | _ => none
  else none

/-- Decode a UTF-8 byte sequence codepoint by codepoint; the fuel only bounds
the number of codepoints and never runs out when it is at least the byte
count (each codepoint consumes at least one byte). -/
def utf8dCore : Nat → List Nat → Option (List Char)
  | _, [] => some []
  | 0, _ :: _ => none
  | fuel + 1, b :: rest =>
    match utf8dOne b rest with
    | some (c, r) => (utf8dCore fuel r).map (c :: ·)
    | none => none

/-- UTF-8 decoding (`bytes.decode('utf-8')`), `none` on invalid sequences.
Exact on ASCII (the only range the theorems use). -/
def utf8d (bs : List Nat) : Option (List Char) := utf8dCore bs.length bs

/-! ### Flat JSON objects (`json.dumps(..., separators=(',',':'))` / `json.loads`)

The JWT header and claims this application produces are flat JSON objects
whose values are strings or integers, so the codec is specialized to that
shape (`JVal`).  `json.dumps`'s `ensure_ascii` escaping of non-ASCII
characters and float/exponent number forms are outside the model; the
well-formedness predicates used by the theorems restrict claim strings to
printable ASCII without `"` or `\`, where the model is exact.  `json.loads`'s
whitespace tolerance is not modelled (the serialized forms contain none). -/

instance instDecEqExcept {e a : Type} [DecidableEq e] [DecidableEq a] :
    DecidableEq (Except e a) := fun x y =>
  match x, y with
  | .ok v, .ok w =>
    if h : v = w then isTrue (by rw [h]) else isFalse (by intro hc; cases hc; exact h rfl)
  | .error v, .error w =>
    if h : v = w then isTrue (by rw [h]) else isFalse (by intro hc; cases hc; exact h rfl)
  | .ok _, .error _ => isFalse (by intro hc; cases hc)
  | .error _, .ok _ => isFalse (by intro hc; cases hc)

/-- A JSON value as used in this application's token claims. -/
inductive JVal where
  | vstr (s : String)
  | vnum (n : Int)
deriving DecidableEq, Repr

/-- A claims mapping: a Python `dict` in insertion order (keys are unique in
any mapping that originates from a real `dict`). -/
abbrev Claims := List (String × JVal)

/-- Python `dict.get`. -/
def Claims.get? (c : Claims) (k : String) : Option JVal :=
  (c.find? (fun p => p.1 == k)).map (·.2)

/-- Python `dict.update` with a single key: replace in place when the key is
present (keeping its position), append otherwise. -/
def Claims.update : Claims → String → JVal → Claims
  | [], k, v => [(k, v)]
  | (k', v') :: rest, k, v =>
    if k' == k then (k', v) :: rest else (k', v') :: Claims.update rest k v

/-- Hex digit character (lower case, as `json.dumps` emits). -/
def hexDigit (k : Nat) : Char := if k < 10 then Char.ofNat (48 + k) else Char.ofNat (87 + k)

/-- JSON string-character escaping, as `json.dumps` applies to ASCII input. -/
def escChar (c : Char) : List Char :=
  if c == '"' then ['\\', '"']
  else if c == '\\' then ['\\', '\\']
  else if c == '\n' then ['\\', 'n']
  else if c == '\t' then ['\\', 't']
  else if c == '\r' then ['\\', 'r']
  else if c.toNat < 0x20 then
    ['\\', 'u', '0', '0', hexDigit (c.toNat / 16), hexDigit (c.toNat % 16)]
  else [c]

/-- JSON string literal for `s`. -/
def jstr (s : List Char) : List Char := '"' :: (s.map escChar).flatten ++ ['"']

/-- Decimal digit character. -/
def digCh (k : Nat) : Char := Char.ofNat (48 + k)

/-- Decimal digits of a natural number, most significant first (accumulator
form of Python's `str(int)`); structural recursion on a fuel bound so the
definition reduces in the kernel — `natDigits` supplies enough fuel for any
input, and `natDigitsCore` never runs out on the values it is given. -/
def natDigitsCore : Nat → Nat → List Char → List Char
  | 0, _, acc => acc
  | fuel + 1, n, acc =>
    if n = 0 then acc else natDigitsCore fuel (n / 10) (digCh (n % 10) :: acc)

/-- Decimal representation of a natural number. -/
def natDigits (n : Nat) : List Char := if n = 0 then ['0'] else natDigitsCore (n + 1) n []

/-- Decimal representation of an integer (Python `str(int)` / `json.dumps`). -/
def intChars (n : Int) : List Char :=
  if n < 0 then '-' :: natDigits n.natAbs else natDigits n.toNat

/-- Serialize one JSON value. -/
def printJVal : JVal → List Char
  | .vstr s => jstr s.data
  | .vnum n => intChars n

/-- Serialize one `key:value` member. -/
def printPair (p : String × JVal) : List Char := jstr p.1.data ++ ':' :: printJVal p.2

/-- Comma-join serialized members. -/
def sepComma : List (List Char) → List Char
  | [] => []
  | [x] => x
  | x :: xs => x ++ ',' :: sepComma xs

/-- Compact JSON object text of a claims mapping, member order preserved
(`json.dumps(d, separators=(',', ':'))` on a `dict`). -/
def printObj (c : Claims) : List Char := '{' :: sepComma (c.map printPair) ++ ['}']

/-- Value of four hex digit characters, `none` if any is not a hex digit. -/
def hexVal? (c : Char) : Option Nat :=
  let n := c.toNat
  if 48 ≤ n && n ≤ 57 then some (n - 48)
  else if 97 ≤ n && n ≤ 102 then some (n - 87)
  else if 65 ≤ n && n ≤ 70 then some (n - 55)
  else none

/-- Parse the body of a JSON string literal (opening quote already consumed);
returns the content and the remainder after the closing quote.  Escape
handling mirrors `json.loads` on the Basic Multilingual Plane (surrogate-pair
recombination is not modelled; it cannot arise from the ASCII strings the
theorems quantify over). -/
def parseJStr : List Char → Option (List Char × List Char)
  | [] => none
  | c :: rest =>
    if c == '"' then some ([], rest)
    else if c == '\\' then
      match rest with
      | [] => none
      | e :: r2 =>
        if e == '"' then (parseJStr r2).map (fun p => ('"' :: p.1, p.2))
        else if e == '\\' then (parseJStr r2).map (fun p => ('\\' :: p.1, p.2))
        else if e == '/' then (parseJStr r2).map (fun p => ('/' :: p.1, p.2))
        else if e == 'n' then (parseJStr r2).map (fun p => ('\n' :: p.1, p.2))
        else if e == 't' then (parseJStr r2).map (fun p => ('\t' :: p.1, p.2))
        else if e == 'r' then (parseJStr r2).map (fun p => ('\r' :: p.1, p.2))
        else if e == 'b' then (parseJStr r2).map (fun p => (Char.ofNat 8 :: p.1, p.2))
        else if e == 'f' then (parseJStr r2).map (fun p => (Char.ofNat 12 :: p.1, p.2))
        else if e == 'u' then
          match r2 with
          | h1 :: h2 :: h3 :: h4 :: r3 =>
            match hexVal? h1, hexVal? h2, hexVal? h3, hexVal? h4 with
            | some a, some b, some c', some d =>
              (parseJStr r3).map
                (fun p => (Char.ofNat (a * 4096 + b * 256 + c' * 16 + d) :: p.1, p.2))
            | _, _, _, _ => none
          | _ => none
        else none
    else if c.toNat < 0x20 then none
    else (parseJStr rest).map (fun p => (c :: p.1, p.2))

/-- Accumulate a maximal run of decimal digits. -/
def parseDigitsAcc : List Char → Nat → Nat × List Char
  | [], acc => (acc, [])
  | c :: rest, acc =>
    if c.isDigit then parseDigitsAcc rest (acc * 10 + (c.toNat - 48)) else (acc, c :: rest)

/-- Parse a nonempty digit run as a natural number. -/
def parseNatChars : List Char → Option (Nat × List Char)
  | [] => none
  | c :: rest =>
    if c.isDigit then some (parseDigitsAcc rest (c.toNat - 48)) else none

/-- Parse a JSON integer (optional minus sign, then digits).  Floats and
exponents are outside the model; this application's numeric claims are the
integral `exp` timestamps. -/
def parseJNum : List Char → Option (Int × List Char)
  | [] => none
  | c :: r =>
    if c == '-' then (parseNatChars r).map (fun p => (-(p.1 : Int), p.2))
    else (parseNatChars (c :: r)).map (fun p => ((p.1 : Int), p.2))

/-- Parse one JSON value (string or integer). -/
def parseJVal : List Char → Option (JVal × List Char)
  | [] => none
  | c :: r =>
    if c == '"' then (parseJStr r).map (fun p => (JVal.vstr (String.mk p.1), p.2))
    else (parseJNum (c :: r)).map (fun p => (JVal.vnum p.1, p.2))

/-- Parse the members of a JSON object after its `{`; the fuel bounds the
number of members and only shrinks the domain when exhausted (the top-level
entry point supplies more fuel than any input can consume). -/
def parsePairs : Nat → List Char → Option (Claims × List Char)
  | 0, _ => none
  | fuel + 1, cs =>
    match cs with
    | [] => none
    | c :: r =>
      if c == '"' then
        match parseJStr r with
        | none => none
        | some (k, r1) =>
          match r1 with
          | [] => none
          | c1 :: r2 =>
            if c1 == ':' then
              match parseJVal r2 with
              | none => none
              | some (v, r3) =>
                match r3 with
                | [] => none
                | c2 :: r4 =>
                  if c2 == ',' then
                    (parsePairs fuel r4).map (fun p => ((String.mk k, v) :: p.1, p.2))
                  else if c2 == '}' then some ([(String.mk k, v)], r4)
                  else none
            else none
      else none

/-- Parse a complete flat JSON object occupying the whole input
(`json.loads`, specialized to this application's claim shape). -/
def parseClaims (cs : List Char) : Option Claims :=
  match cs with
  | [] => none
  | c :: r =>
    if c == '{' then
      match r with
      | [] => none
      | c1 :: r2 =>
        if c1 == '}' then (if r2.isEmpty then some [] else none)
        else
          match parsePairs (r.length + 1) r with
          | some (ps, []) => some ps
          | _ => none
    else none

/-! ### Settings (`app/config/settings.py`)

Environment-sourced module constants; the structure's defaults are the
in-source development defaults. -/

/-- JWT-relevant configuration from `app/config/settings.py`. -/
structure Settings where
  SECRET_KEY : String := "generate-a-strong-key-for-prod"
  ALGORITHM : String := "HS256"
  ACCESS_TOKEN_EXPIRE_MINUTES : Int := 30

/-- The in-source development defaults. -/
def defaultSettings : Settings := {}

/-! ### jose JWT model (`jose.jwt.encode` / `jose.jwt.decode`)

The HMAC ("HS256"-class) digest is an abstract parameter: `mac key msg` is
the raw digest bytes of `msg` under `key`.  Theorems quantify over it
(restricted to byte-valued outputs); witnesses instantiate concrete
functions. -/

/-- An HMAC-style digest function: key bytes and message bytes to digest
bytes. -/
abbrev Mac := List Nat → List Nat → List Nat

/-- `mac` produces bytes. -/
abbrev MacBytes (mac : Mac) : Prop := ∀ k m, ∀ b ∈ mac k m, b < 256

/-- The JWS header jose builds for a symmetric algorithm
(`{"alg": ALGORITHM, "typ": "JWT"}`, serialized with `sort_keys=True`, which
yields this member order). -/
def joseHeader (st : Settings) : Claims := [("alg", JVal.vstr st.ALGORITHM), ("typ", JVal.vstr "JWT")]

/-- `jose.jws.sign`: serialize header and payload, base64url both, sign
`header.payload` with the key, and append the base64url signature. -/
def jwsSign (mac : Mac) (st : Settings) (payloadObj : Claims) : List Char :=
  let hSeg := b64e (utf8 (printObj (joseHeader st)))
  let pSeg := b64e (utf8 (printObj payloadObj))
  let signingInput := hSeg ++ '.' :: pSeg
  let sig := mac (utf8 st.SECRET_KEY.data) (utf8 signingInput)
  signingInput ++ '.' :: b64e sig

/-- `JWTManager.create_access_token`: copy the payload, overwrite `exp` with
`now + expires_delta` (the settings default when the delta is absent — or
`timedelta(0)`, which is falsy under the source's `expires_delta or ...`),
and sign.  Times are `Int` seconds. -/
def create_access_token (mac : Mac) (st : Settings) (data : Claims) (now : Int)
    (expires_delta : Option Int) : List Char :=
  let delta := match expires_delta with
    | some d => if d = 0 then st.ACCESS_TOKEN_EXPIRE_MINUTES * 60 else d
    | none => st.ACCESS_TOKEN_EXPIRE_MINUTES * 60
  let expire := now + delta
  let to_encode := Claims.update data "exp" (JVal.vnum expire)
  jwsSign mac st to_encode

/-- The distinct failure causes inside `jose.jwt.decode` (`JWSError`s raised
while loading/verifying, re-raised as `JWTError`, plus the claim-validation
errors).  `JWTManager.verify_access_token` catches them all. -/
inductive JoseError where
  | notEnoughSegments
  | invalidHeaderPadding
  | invalidHeaderString
  | algMissing
  | algNotAllowed
  | invalidPayloadPadding
  | invalidCryptoPadding
  | signatureVerificationFailed
  | invalidPayloadString
  | claimFormatInvalid
  | signatureExpired
deriving DecidableEq, Repr

/-- Split at the first character satisfying `p`; `none` when absent. -/
def splitFirst (p : Char → Bool) : List Char → Option (List Char × List Char)
  | [] => none
  | c :: rest =>
    if p c then some ([], rest)
    else (splitFirst p rest).map (fun q => (c :: q.1, q.2))

/-- Python `s.split('.', 1)` as used by jose (failure = `ValueError`). -/
def splitFirstDot (cs : List Char) : Option (List Char × List Char) :=
  splitFirst (· == '.') cs

/-- Python `s.rsplit('.', 1)`: split at the last dot. -/
def splitLastDot (cs : List Char) : Option (List Char × List Char) :=
  (splitFirstDot cs.reverse).map (fun q => (q.2.reverse, q.1.reverse))

/-- Python `int(x)` on a claim value: integers pass through, strings are
parsed as decimal integers (whole string, optional sign). -/
def pyInt? : JVal → Option Int
  | .vnum n => some n
  | .vstr s =>
    match parseJNum s.data with
    | some (n, []) => some n
    | _ => none

/-- jose `_validate_claims` on the claims this application can carry:
`exp` (absent ⇒ no expiry check; non-int ⇒ claims error; `exp < now` ⇒
expired) and `sub` (present ⇒ must be a string).  `iat`/`nbf`/`aud`/`iss`/
`jti` handling is outside the model; the well-formedness predicate used by
the theorems excludes those keys. -/
def validate_claims (claims : Claims) (now : Int) : Except JoseError Claims :=
  let subOk : Except JoseError Claims :=
    match Claims.get? claims "sub" with
    | some (JVal.vnum _) => .error .claimFormatInvalid
    | _ => .ok claims
  match Claims.get? claims "exp" with
  | none => subOk
  | some v =>
    match pyInt? v with
    | none => .error .claimFormatInvalid
    | some e => if e < now then .error .signatureExpired else subOk

/-- `jose.jwt.decode(token, key, algorithms=[ALGORITHM])`, with the failure
cause made explicit.  Steps in source order: `rsplit`/`split` the segments
(`Not enough segments`), base64url-decode header, parse it as JSON, base64url-
decode payload and signature (padding errors), require the header's `alg` to
be the configured algorithm, compare the decoded signature bytes against the
digest of the signing input (`hmac.compare_digest`), then parse the payload
JSON and validate the claims.  Expiry uses `exp < now` — a token is accepted
at the instant `now = exp`. -/
def jwt_decode (mac : Mac) (st : Settings) (token : List Char) (now : Int) :
    Except JoseError Claims :=
  match splitLastDot token with
  | none => .error .notEnoughSegments
  | some (signingInput, cryptoSeg) =>
    match splitFirstDot signingInput with
    | none => .error .notEnoughSegments
    | some (headerSeg, claimsSeg) =>
      match b64d headerSeg with
      | none => .error .invalidHeaderPadding
      | some headerBytes =>
        match utf8d headerBytes with
        | none => .error .invalidHeaderString
        | some headerChars =>
          match parseClaims headerChars with
          | none => .error .invalidHeaderString
          | some header =>
            match b64d claimsSeg with
            | none => .error .invalidPayloadPadding
            | some payloadBytes =>
              match b64d cryptoSeg with
              | none => .error .invalidCryptoPadding
              | some sigBytes =>
                match Claims.get? header "alg" with
                | some (JVal.vstr a) =>
                  if a ≠ st.ALGORITHM then .error .algNotAllowed
                  else if sigBytes ≠ mac (utf8 st.SECRET_KEY.data) (utf8 signingInput) then
                    .error .signatureVerificationFailed
                  else
                    match utf8d payloadBytes with
                    | none => .error .invalidPayloadString
                    | some payloadChars =>
                      match parseClaims payloadChars with
                      | none => .error .invalidPayloadString
                      | some claims => validate_claims claims now
                | _ => .error .algMissing

/-- `JWTManager.verify_access_token`: run `jose.jwt.decode` and return the
payload, catching every `JWTError` and returning `None` — the failure cause
is discarded.  The function is total: it never raises to its caller. -/
def verify_access_token (mac : Mac) (st : Settings) (token : String) (now : Int) :
    Option Claims :=
  (jwt_decode mac st token.data now).toOption

/-! ### Authentication dependency (`app/api/dependencies.py`)

`oauth2_scheme = OAuth2PasswordBearer(tokenUrl="auth/login")` with the
default `auto_error=True`: FastAPI reads the `Authorization` header,
partitions it at the first space, and raises
`HTTPException(401, "Not authenticated", {"WWW-Authenticate": "Bearer"})`
when the header is absent/empty or the scheme is not `bearer`
(case-insensitive).  `get_current_user` then calls
`JWTManager.verify_access_token(token)` inside a `try`: since
`verify_access_token` returns `None` on failure instead of raising, the
`except` branch that would produce the 401 is unreachable, and the dependency
returns the payload — possibly `None` — to the route handler. -/

/-- The observable outcome of a FastAPI `HTTPException`. -/
structure HTTPExceptionModel where
  status_code : Nat
  detail : String
  www_authenticate : Option String
deriving DecidableEq, Repr

/-- ASCII lower-casing of one character (`str.lower()` on the ASCII range the
bearer scheme comparison concerns). -/
def lowerChar (c : Char) : Char :=
  if 65 ≤ c.toNat ∧ c.toNat ≤ 90 then Char.ofNat (c.toNat + 32) else c

/-- `str.lower()` on the scheme token. -/
def strToLower (s : String) : String := String.mk (s.data.map lowerChar)

/-- `fastapi.security.utils.get_authorization_scheme_param`:
`authorization_header_value.partition(" ")` into scheme and parameter. -/
def get_authorization_scheme_param (v : String) : String × String :=
  match splitFirst (· == ' ') v.data with
  | some (a, b) => (String.mk a, String.mk b)
  | none => (v, "")

/-- `OAuth2PasswordBearer.__call__` with `auto_error=True`. -/
def oauth2_scheme (authorization : Option String) : Except HTTPExceptionModel String :=
  let a := authorization.getD ""
  let sp := get_authorization_scheme_param a
  if a = "" ∨ strToLower sp.1 ≠ "bearer" then
    .error ⟨401, "Not authenticated", some "Bearer"⟩
  else .ok sp.2

/-- `get_current_user`: extract the bearer token, verify it, and hand the
resulting payload to the route handler.  The source's `except` clause (which
would raise 401 `WWW-Authenticate: Bearer`) never fires for a failed
verification because `verify_access_token` returns `None` rather than
raising. -/
def get_current_user (mac : Mac) (st : Settings) (authorization : Option String)
    (now : Int) : Except HTTPExceptionModel (Option Claims) :=
  match oauth2_scheme authorization with
  | .error e => .error e
  | .ok token => .ok (verify_access_token mac st token now)

/-! ### Password hashing (`passlib.context.CryptContext(schemes=["bcrypt"])`)

The bcrypt key-derivation function is an abstract parameter
`digest : salt chars → password bytes → digest text`; passlib's behaviour
around it is modelled: the password is truncated to its first 72 bytes
(silent `truncate_size=72`), the hash string is the modular-crypt form
`"$2b$12$" ++ 22 salt chars ++ 31 digest chars`, `verify` re-derives the
digest with the salt embedded in the stored hash and compares, and a hash
string that does not parse makes `CryptContext.verify` raise
`UnknownHashError` — it does not return `False`. -/

/-- An abstract bcrypt key-derivation function: salt text and (truncated)
password bytes to the 31-character digest text. -/
abbrev BcryptDigest := String → List Nat → String

/-- bcrypt ignores password bytes beyond the 72nd. -/
def bcryptTrunc (pw : List Nat) : List Nat := pw.take 72

/-- The errors `CryptContext.verify` can raise. -/
inductive PasslibError where
  | unknownHash
deriving DecidableEq, Repr

/-- Parse a bcrypt modular-crypt hash string (passlib `identify` +
`from_string`): the `"$2b$12$"` preamble, 22 salt characters, 31 digest
characters.  Other idents/round counts accepted by passlib are not used by
this model's hasher and are omitted. -/
def identify_bcrypt? (h : String) : Option (String × String) :=
  let cs := h.data
  if cs.length = 60 ∧ cs.take 7 = "$2b$12$".data then
    let rest := cs.drop 7
    some (String.mk (rest.take 22), String.mk (rest.drop 22))
  else none

/-- `JWTManager.get_password_hash` = `pwd_context.hash(password)` with the
salt made explicit (passlib draws it at random per call; every theorem holds
for all salts). -/
def get_password_hash (digest : BcryptDigest) (salt : String) (password : String) : String :=
  "$2b$12$" ++ salt ++ digest salt (bcryptTrunc (utf8 password.data))

/-- `JWTManager.verify_password` = `pwd_context.verify(plain, hashed)`:
parse the stored hash (raising `UnknownHashError` when it matches no
scheme), re-derive the digest of the truncated plaintext under the embedded
salt, and compare. -/
def verify_password (digest : BcryptDigest) (plain hashed : String) :
    Except PasslibError Bool :=
  match identify_bcrypt? hashed with
  | none => .error .unknownHash
  | some (salt, dg) => .ok (digest salt (bcryptTrunc (utf8 plain.data)) == dg)

/-! ### User DTO (`app/application/dto/user_dto.py`) -/

/-- `UserCreateDTO` after pydantic validation. -/
structure UserCreateDTO where
  username : String
  password : String
  email : String
deriving DecidableEq, Repr

/-- The pydantic `field_validator('password')`: reject passwords longer than
72 UTF-8 bytes before the DTO (and hence any hashing) exists. -/
def password_length_check (v : String) : Except String String :=
  if 72 < (utf8 v.data).length then .error "Password cannot be longer than 72 bytes"
  else .ok v

/-- Failure modes of the registration flows. -/
inductive RegError where
  | validation (msg : String)
  | duplicateUsername
  | duplicateEmail
  | integrityError
deriving DecidableEq, Repr

/-- Construct a `UserCreateDTO` as pydantic does: run the field validator on
the password (the `EmailStr` format check is orthogonal to the claims and not
modelled). -/
def UserCreateDTO.validate (username password email : String) :
    Except RegError UserCreateDTO :=
  match password_length_check password with
  | .error m => .error (.validation m)
  | .ok p => .ok ⟨username, p, email⟩

/-! ### User directory and registration services

`app/adapters/db/base.py` (the SQLAlchemy `User` model) is imported by the
repository and services but is not part of the source tree.
Modelled from the spec: the User Directory is an external storage collaborator
holding user records keyed by assigned identifier, with "a uniqueness
constraint on username/email ... enforced by that storage layer" (§5) — a
commit that would violate it fails with a storage integrity error and
persists nothing. -/

/-- A persisted user record (`User` model: `id`, `username`, `email`,
`password_hash`). -/
structure UserModel where
  id : Nat
  username : String
  email : String
  password_hash : String
deriving DecidableEq, Repr

/-- Modelled from the spec: the User Directory's state — the persisted
records and the next identifier the storage will assign. -/
structure Db where
  users : List UserModel
  next_id : Nat
deriving DecidableEq, Repr

/-- `UserRepositoryImpl.get_user_by_username`. -/
def get_user_by_username (db : Db) (username : String) : Option UserModel :=
  db.users.find? (fun u => u.username == username)

/-- `UserRepositoryImpl.get_user_by_email`. -/
def get_user_by_email (db : Db) (email : String) : Option UserModel :=
  db.users.find? (fun u => u.email == email)

/-- Modelled from the spec: `session.add` + `session.commit` +
`session.refresh` against the storage layer's uniqueness constraint on
username/email; on success the record is persisted with the assigned
identifier, on violation the commit raises an integrity error and persists
nothing. -/
def db_insert_commit (db : Db) (username email phash : String) :
    Except RegError (UserModel × Db) :=
  if (get_user_by_username db username).isSome ∨ (get_user_by_email db email).isSome then
    .error .integrityError
  else
    let u : UserModel := ⟨db.next_id, username, email, phash⟩
    .ok (u, ⟨db.users ++ [u], db.next_id + 1⟩)

/-- `UserRepositoryImpl.create_user`. -/
def create_user (db : Db) (username phash email : String) :
    Except RegError (UserModel × Db) :=
  db_insert_commit db username email phash

namespace UserService

/-- `UserService.register_user` (domain service): reject a present username
(`ValueError("Username already registered")`) then a present email
(`ValueError("Email already registered")`), otherwise hash the password and
persist via the repository. -/
def register_user (digest : BcryptDigest) (salt : String) (db : Db)
    (user_in : UserCreateDTO) : Except RegError (UserModel × Db) :=
  if (get_user_by_username db user_in.username).isSome then .error .duplicateUsername
  else if (get_user_by_email db user_in.email).isSome then .error .duplicateEmail
  else create_user db user_in.username (get_password_hash digest salt user_in.password) user_in.email

end UserService

namespace UserApplicationService

/-- `UserApplicationService.authenticate_user`: the credentials are compared
against the hardcoded pair `("admin", "secret123")`; the User Directory and
the password hasher are never consulted.  The returned identity carries the
username. -/
def authenticate_user (username password : String) : Option String :=
  if username == "admin" && password == "secret123" then some "admin" else none

/-- `UserApplicationService.register_user`: builds the record (hashing the
password) and commits it — with no duplicate username/email check of its own,
so a duplicate surfaces only as the storage layer's integrity error, which
the auth router does not translate into a 400. -/
def register_user (digest : BcryptDigest) (salt : String) (db : Db)
    (user_in : UserCreateDTO) : Except RegError (UserModel × Db) :=
  db_insert_commit db user_in.username user_in.email
    (get_password_hash digest salt user_in.password)

end UserApplicationService

/-- The `/auth/register` flow of `user_router.py`: pydantic builds the DTO
(running the password length validator), then the domain service registers. -/
def register_endpoint (digest : BcryptDigest) (salt : String) (db : Db)
    (username password email : String) : Except RegError (UserModel × Db) :=
  match UserCreateDTO.validate username password email with
  | .error e => .error e
  | .ok dto => UserService.register_user digest salt db dto

/-- The `/auth/login` flow of `auth_router.py`: authenticate (401
`"Invalid credentials"` on `None`) and issue a token for
`{"sub": user.username}`. -/
def login (mac : Mac) (st : Settings) (username password : String) (now : Int) :
    Except HTTPExceptionModel (List Char) :=
  match UserApplicationService.authenticate_user username password with
  | none => .error ⟨401, "Invalid credentials", none⟩
  | some u => .ok (create_access_token mac st [("sub", JVal.vstr u)] now none)

/-! ### Well-formedness predicates

The JSON model is exact on printable ASCII without `"` and `\`
(`json.dumps(ensure_ascii=True)` escaping of other characters is outside the
model), on claim mappings with unique keys (any real `dict`), whose `sub` is
a string when present (jose validates that), and which carry none of the
registered claims (`iat`/`nbf`/`aud`/`iss`/`jti`) whose extra jose validation
is not modelled.  All predicates are decidable so witnesses can evaluate
them. -/

/-- Printable ASCII without `"` and `\`: characters `json.dumps` passes
through unescaped. -/
abbrev StrOkChars (s : List Char) : Prop :=
  ∀ c ∈ s, 0x20 ≤ c.toNat ∧ c.toNat < 0x7F ∧ c ≠ '"' ∧ c ≠ '\\'

/-- `StrOkChars` on a string's characters. -/
abbrev StrOk (s : String) : Prop := StrOkChars s.data

/-- Registered claim names whose jose validation is outside the model. -/
def reservedKeys : List String := ["iat", "nbf", "aud", "iss", "jti"]

/-- The `sub` claim, when present, is not a number (jose rejects a non-string
`sub`). -/
def subShapeOk (c : Claims) : Bool :=
  match Claims.get? c "sub" with
  | some (JVal.vnum _) => false
  | _ => true

/-- Serialization well-formedness of one claim value (decidably stated). -/
abbrev ValWf (v : JVal) : Prop :=
  match v with
  | JVal.vstr s => StrOkChars s.data
  | JVal.vnum _ => True

instance instDecidableValWf (v : JVal) : Decidable (ValWf v) :=
  match v with
  | JVal.vstr s => inferInstanceAs (Decidable (StrOkChars s.data))
  | JVal.vnum _ => inferInstanceAs (Decidable True)

/-- A claims mapping on which the serialization model is exact. -/
abbrev ClaimsWf (c : Claims) : Prop :=
  (c.map Prod.fst).Nodup ∧ subShapeOk c = true ∧
    ∀ p ∈ c, StrOkChars p.1.data ∧ ValWf p.2 ∧ p.1 ∉ reservedKeys

/-- Settings whose algorithm name serializes exactly. -/
abbrev SettingsWf (st : Settings) : Prop := StrOk st.ALGORITHM

/-- Per-pair serialization well-formedness extracted from `ClaimsWf`. -/
abbrev PairsWf (ps : Claims) : Prop :=
  ∀ p ∈ ps, StrOkChars p.1.data ∧ ValWf p.2

/-- Whether a character sequence cannot extend a digit run. -/
abbrev headNotDigit (cs : List Char) : Prop :=
  match cs with
  | [] => True
  | c :: _ => c.isDigit = false

/-- The header segment of every token this configuration signs. -/
def headerSeg (st : Settings) : List Char := b64e (utf8 (printObj (joseHeader st)))

/-- The payload segment encoding a given claims object. -/
def payloadSeg (payloadObj : Claims) : List Char := b64e (utf8 (printObj payloadObj))

/-- A three-segment token whose header and signature come from signing
`payloadObj` under `st`, but whose payload segment has been replaced by
`pSeg` — `tokenWith mac st payloadObj (payloadSeg payloadObj) = jwsSign mac
st payloadObj`, and other `pSeg` values are tampered variants. -/
def tokenWith (mac : Mac) (st : Settings) (payloadObj : Claims) (pSeg : List Char) :
    List Char :=
  headerSeg st ++ '.' :: pSeg ++ '.' ::
    b64e (mac (utf8 st.SECRET_KEY.data) (utf8 (headerSeg st ++ '.' :: payloadSeg payloadObj)))

/-! ### Concrete instruments for witnesses and counterexamples

The abstract digest parameters are instantiated with small executable
functions; every general theorem is proved for all digests, these only let
closed statements evaluate. -/

/-- A concrete `Mac` for witnesses: one byte summarizing key and message
(sensitive to every byte of both). -/
def macSum : Mac := fun k m => [(k.sum + m.sum) % 256]

/-- A concrete bcrypt digest for witnesses: 31 characters drawn from the
truncated password bytes and the salt. -/
def digestToy : BcryptDigest := fun salt pw =>
  String.mk (((pw ++ (utf8 salt.data)).map (fun b => encB64 (b % 64)) ++
    List.replicate 31 'A').take 31)

/-- A fixed 22-character salt for witnesses. -/
def saltToy : String := "abcdefghijklmnopqrstuv"

/-- The token of the C3 counterexample: issued for `{"sub": "alice"}` at time
0 with a 1800-second ttl under the default settings and `macSum`. -/
def c3tok : List Char :=
  create_access_token macSum defaultSettings [("sub", JVal.vstr "alice")] 0 (some 1800)

/-- `c3tok` with the final character of its signature segment replaced: the
base64url character one code point up re-encodes only the unused trailing
bits of the final 6-bit group, so it decodes to the same signature bytes. -/
def c3tampered : List Char :=
  c3tok.dropLast ++ [encB64 (((decB64? (c3tok.getLastD 'A')).getD 0) + 1)]

/-- The payload segment of `{"sub": "alice"}` with its first character
replaced by a different base64url character: a one-byte payload tamper whose
segment still decodes. -/
def c3pTampered : List Char :=
  match payloadSeg [("sub", JVal.vstr "alice")] with
  | c :: rest => (if c == 'A' then 'B' else 'A') :: rest
  | [] => []

/-- A structurally valid token whose signature segment is not the digest of
its signing input (under `macSum`): used to exhibit the
signature-failure-to-`None` collapse. -/
def badSigTok : List Char :=
  headerSeg defaultSettings ++ '.' :: payloadSeg [("sub", JVal.vstr "alice")] ++ '.' :: "AAAA".data

/-- An expired token: issued at time 0 with a 10-second ttl. -/
def expiredTok : List Char :=
  create_access_token macSum defaultSettings [("sub", JVal.vstr "alice")] 0 (some 10)

/-- A directory state holding one persisted user, for the registration
counterexample. -/
def dbAlice : Db :=
  ⟨[⟨1, "alice", "alice@example.com", get_password_hash digestToy saltToy "wonderland"⟩], 2⟩

/-! ## Theorems -/

/-! ### base64url round trip -/

theorem decB64_encB64_fin : ∀ k : Fin 64, decB64? (encB64 k.val) = some k.val := by
  decide

theorem encB64_isB64_fin : ∀ k : Fin 64, isB64 (encB64 k.val) = true := by
  decide

theorem encB64_ne_pad_fin : ∀ k : Fin 64, (encB64 k.val == '=') = false := by
  decide

theorem encB64_ne_dot_fin : ∀ k : Fin 64, (encB64 k.val == '.') = false := by
  decide

theorem encB64_ascii_fin : ∀ k : Fin 64, (encB64 k.val).toNat < 0x80 := by
  decide

theorem encVals_lt (bs : List Nat) : ∀ v ∈ encVals bs, v < 64 := by
  induction bs using encVals.induct with
  | case1 => intro v hv; simp [encVals] at hv
  | case2 b0 => intro v hv; simp [encVals] at hv; rcases hv with h | h <;> omega
  | case3 b0 b1 =>
      intro v hv; simp [encVals] at hv
      rcases hv with h | h | h <;> omega
  | case4 b0 b1 b2 rest ih =>
      intro v hv; simp only [encVals, List.mem_cons] at hv
      rcases hv with h | h | h | h | h
      · omega
      · omega
      · omega
      · omega
      · exact ih v h

theorem filterMap_decB64_encB64 (vs : List Nat) (h : ∀ v ∈ vs, v < 64) :
    (vs.map encB64).filterMap decB64? = vs := by
  induction vs with
  | nil => rfl
  | cons v vs ih =>
      have hv : v < 64 := h v (by simp)
      simp only [List.map_cons, List.filterMap_cons,
        decB64_encB64_fin ⟨v, hv⟩]
      exact congrArg (v :: ·) (ih (fun w hw => h w (by simp [hw])))

theorem filter_pad_encB64 (vs : List Nat) (h : ∀ v ∈ vs, v < 64) :
    (vs.map encB64).filter (· == '=') = [] := by
  induction vs with
  | nil => rfl
  | cons v vs ih =>
      have hv : v < 64 := h v (by simp)
      simp only [List.map_cons, List.filter_cons, encB64_ne_pad_fin ⟨v, hv⟩]
      exact ih (fun w hw => h w (by simp [hw]))

theorem encVals_length (bs : List Nat) :
    (encVals bs).length % 4 = 0 ∨ (encVals bs).length % 4 = 2 ∨
      (encVals bs).length % 4 = 3 := by
  induction bs using encVals.induct with
  | case1 => simp [encVals]
  | case2 b0 => simp [encVals]
  | case3 b0 b1 => simp [encVals]
  | case4 b0 b1 b2 rest ih =>
      simp only [encVals, List.length_cons]
      rcases ih with h | h | h <;> omega

theorem b64dVals_encVals (bs : List Nat) (h : ∀ b ∈ bs, b < 256) :
    b64dVals (encVals bs) = some bs := by
  induction bs using encVals.induct with
  | case1 => rfl
  | case2 b0 =>
      have h0 : b0 < 256 := h b0 (by simp)
      simp only [encVals, b64dVals, Option.some.injEq, List.cons.injEq, and_true]
      omega
  | case3 b0 b1 =>
      have h0 : b0 < 256 := h b0 (by simp)
      have h1 : b1 < 256 := h b1 (by simp)
      simp only [encVals, b64dVals, Option.some.injEq, List.cons.injEq, and_true]
      constructor <;> omega
  | case4 b0 b1 b2 rest ih =>
      have h0 : b0 < 256 := h b0 (by simp)
      have h1 : b1 < 256 := h b1 (by simp)
      have h2 : b2 < 256 := h b2 (by simp)
      have hrest := ih (fun b hb => h b (by simp [hb]))
      simp only [encVals, b64dVals, hrest, Option.map_some', Option.some.injEq,
        List.cons.injEq, and_true, true_and]
      omega

theorem b64d_b64e (bs : List Nat) (h : ∀ b ∈ bs, b < 256) :
    b64d (b64e bs) = some bs := by
  have hlt := encVals_lt bs
  have hdig : (b64e bs).filterMap decB64? = encVals bs :=
    filterMap_decB64_encB64 _ hlt
  have hpad : (b64e bs).filter (· == '=') = [] := filter_pad_encB64 _ hlt
  have hlen : (b64e bs).length = (encVals bs).length := List.length_map _ _
  rcases encVals_length bs with h4 | h4 | h4 <;>
    simp only [b64d, hdig, hpad, hlen, List.length_nil, h4] <;>
    norm_num <;>
    exact b64dVals_encVals bs h

/-! ### UTF-8 on ASCII -/

theorem utf8_ascii (cs : List Char) (h : ∀ c ∈ cs, c.toNat < 0x80) :
    utf8 cs = cs.map Char.toNat := by
  induction cs with
  | nil => rfl
  | cons c cs ih =>
      have hc : c.toNat < 0x80 := h c (by simp)
      simp only [utf8, List.map_cons, List.flatten_cons] at *
      rw [ih (fun d hd => h d (by simp [hd]))]
      simp [utf8Char, hc]

theorem utf8_ascii_bytes (cs : List Char) (h : ∀ c ∈ cs, c.toNat < 0x80) :
    ∀ b ∈ utf8 cs, b < 256 := by
  rw [utf8_ascii cs h]
  intro b hb
  obtain ⟨c, hc, rfl⟩ := List.mem_map.mp hb
  exact lt_trans (h c hc) (by norm_num)

theorem utf8dCore_map_toNat (cs : List Char) :
    ∀ fuel, cs.length ≤ fuel → (∀ c ∈ cs, c.toNat < 0x80) →
      utf8dCore fuel (cs.map Char.toNat) = some cs := by
  induction cs with
  | nil => intro fuel _ _; cases fuel <;> rfl
  | cons c cs ih =>
      intro fuel hf h
      have hc : c.toNat < 0x80 := h c (by simp)
      cases fuel with
      | zero => simp at hf
      | succ f =>
          have hone : utf8dOne c.toNat (cs.map Char.toNat) = some (c, cs.map Char.toNat) := by
            simp only [utf8dOne, if_pos hc, Char.ofNat_toNat]
          have hf' : cs.length ≤ f := by simp only [List.length_cons] at hf; omega
          rw [List.map_cons, utf8dCore, hone]
          simp only [ih f hf' (fun d hd => h d (by simp [hd])), Option.map_some']

theorem utf8d_map_toNat (cs : List Char) (h : ∀ c ∈ cs, c.toNat < 0x80) :
    utf8d (cs.map Char.toNat) = some cs := by
  rw [utf8d, List.length_map]
  exact utf8dCore_map_toNat cs cs.length le_rfl h

theorem utf8d_utf8 (cs : List Char) (h : ∀ c ∈ cs, c.toNat < 0x80) :
    utf8d (utf8 cs) = some cs := by
  rw [utf8_ascii cs h]
  exact utf8d_map_toNat cs h

/-! ### Segment splitting -/

theorem splitFirst_append (p : Char → Bool) (A B : List Char) (x : Char)
    (hA : ∀ c ∈ A, p c = false) (hx : p x = true) :
    splitFirst p (A ++ x :: B) = some (A, B) := by
  induction A with
  | nil => simp [splitFirst, hx]
  | cons a A ih =>
      have ha : p a = false := hA a (by simp)
      show (if p a then some ([], A ++ x :: B)
        else (splitFirst p (A ++ x :: B)).map (fun q => (a :: q.1, q.2))) = _
      rw [ha, if_neg (by simp), ih (fun c hc => hA c (by simp [hc])), Option.map_some']

theorem splitLastDot_append (S C : List Char) (hC : ∀ c ∈ C, (c == '.') = false) :
    splitLastDot (S ++ '.' :: C) = some (S, C) := by
  have : (S ++ '.' :: C).reverse = C.reverse ++ '.' :: S.reverse := by
    simp [List.reverse_append]
  rw [splitLastDot, splitFirstDot, this,
    splitFirst_append _ _ _ _ (fun c hc => hC c (List.mem_reverse.mp hc)) (by decide)]
  simp

theorem b64e_no_dot (bs : List Nat) : ∀ c ∈ b64e bs, (c == '.') = false := by
  intro c hc
  obtain ⟨v, hv, rfl⟩ := List.mem_map.mp hc
  exact encB64_ne_dot_fin ⟨v, encVals_lt bs v hv⟩

theorem b64e_ascii (bs : List Nat) : ∀ c ∈ b64e bs, c.toNat < 0x80 := by
  intro c hc
  obtain ⟨v, hv, rfl⟩ := List.mem_map.mp hc
  exact encB64_ascii_fin ⟨v, encVals_lt bs v hv⟩

/-! ### JSON round trip -/

theorem escChar_clean (c : Char) (h : 0x20 ≤ c.toNat ∧ c.toNat < 0x7F ∧ c ≠ '"' ∧ c ≠ '\\') :
    escChar c = [c] := by
  obtain ⟨h1, h2, h3, h4⟩ := h
  have e3 : (c == '"') = false := by simpa using h3
  have e4 : (c == '\\') = false := by simpa using h4
  have e5 : (c == '\n') = false := by
    simp only [beq_eq_false_iff_ne, ne_eq]
    intro hc; subst hc; simp at h1
  have e6 : (c == '\t') = false := by
    simp only [beq_eq_false_iff_ne, ne_eq]
    intro hc; subst hc; simp at h1
  have e7 : (c == '\r') = false := by
    simp only [beq_eq_false_iff_ne, ne_eq]
    intro hc; subst hc; simp at h1
  simp only [escChar, e3, e4, e5, e6, e7, Bool.false_eq_true, if_neg, not_false_iff,
    if_false]
  rw [if_neg (by omega)]

theorem escape_clean (s : List Char) (h : StrOkChars s) : (s.map escChar).flatten = s := by
  induction s with
  | nil => rfl
  | cons c s ih =>
      simp only [List.map_cons, List.flatten_cons, escChar_clean c (h c (by simp)),
        ih (fun d hd => h d (by simp [hd])), List.singleton_append]

theorem parseJStr_clean (s : List Char) (h : StrOkChars s) :
    ∀ rest, parseJStr (s ++ '"' :: rest) = some (s, rest) := by
  induction s with
  | nil =>
      intro rest
      rw [List.nil_append, parseJStr.eq_def]
      simp
  | cons c s ih =>
      intro rest
      obtain ⟨h1, h2, h3, h4⟩ := h c (by simp)
      have e3 : (c == '"') = false := by simpa using h3
      have e4 : (c == '\\') = false := by simpa using h4
      rw [List.cons_append, parseJStr.eq_def]
      simp only [e3, e4, Bool.false_eq_true, if_false]
      rw [if_neg (by omega), ih (fun d hd => h d (by simp [hd])) rest, Option.map_some']

theorem jstr_parse (s : List Char) (h : StrOkChars s) :
    ∀ rest, parseJStr (jstr s ++ rest |>.drop 1) = some (s, rest) := by
  intro rest
  have : jstr s ++ rest = '"' :: (s ++ '"' :: rest) := by
    simp [jstr, escape_clean s h]
  rw [this]
  exact parseJStr_clean s h rest

/-! digits of `natDigits` -/

theorem natDigitsCore_append (fuel : Nat) :
    ∀ n acc, natDigitsCore fuel n acc = natDigitsCore fuel n [] ++ acc := by
  induction fuel with
  | zero => intro n acc; rfl
  | succ f ih =>
      intro n acc
      by_cases hn : n = 0
      · simp [natDigitsCore, hn]
      · rw [natDigitsCore, if_neg hn, ih (n / 10) (digCh (n % 10) :: acc),
          show natDigitsCore (f + 1) n [] = natDigitsCore f (n / 10) [digCh (n % 10)] by
            rw [natDigitsCore, if_neg hn],
          ih (n / 10) [digCh (n % 10)], List.append_assoc, List.singleton_append]

theorem digCh_isDigit (k : Nat) (h : k < 10) : (digCh k).isDigit = true := by
  have : ∀ j : Fin 10, (digCh j.val).isDigit = true := by decide
  exact this ⟨k, h⟩

theorem digCh_toNat (k : Nat) (h : k < 10) : (digCh k).toNat = 48 + k := by
  have : ∀ j : Fin 10, (digCh j.val).toNat = 48 + j.val := by decide
  exact this ⟨k, h⟩

theorem natDigitsCore_digits (fuel : Nat) :
    ∀ n, ∀ c ∈ natDigitsCore fuel n [], c.isDigit = true := by
  induction fuel with
  | zero => intro n c hc; simp [natDigitsCore] at hc
  | succ f ih =>
      intro n c hc
      by_cases hn : n = 0
      · simp [natDigitsCore, hn] at hc
      · rw [natDigitsCore, if_neg hn, natDigitsCore_append] at hc
        rcases List.mem_append.mp hc with h | h
        · exact ih (n / 10) c h
        · simp only [List.mem_singleton] at h
          subst h
          exact digCh_isDigit _ (Nat.mod_lt _ (by omega))

/-- `foldl`-style decimal value of a digit run starting from `acc`. -/
theorem valD_append (xs ys : List Char) (a : Nat) :
    (xs ++ ys).foldl (fun v c => v * 10 + (c.toNat - 48)) a =
      ys.foldl (fun v c => v * 10 + (c.toNat - 48))
        (xs.foldl (fun v c => v * 10 + (c.toNat - 48)) a) :=
  List.foldl_append _ _ _ _

theorem natDigitsCore_val (fuel : Nat) :
    ∀ n, n < 10 ^ fuel → ∀ a,
      (natDigitsCore fuel n []).foldl (fun v c => v * 10 + (c.toNat - 48)) a =
        a * 10 ^ (natDigitsCore fuel n []).length + n := by
  induction fuel with
  | zero =>
      intro n hn a
      have hn0 : n = 0 := by simpa using hn
      subst hn0
      simp [natDigitsCore]
  | succ f ih =>
      intro n hn a
      by_cases hn0 : n = 0
      · simp [natDigitsCore, hn0]
      · rw [show natDigitsCore (f + 1) n [] = natDigitsCore f (n / 10) [digCh (n % 10)] by
            rw [natDigitsCore, if_neg hn0],
          natDigitsCore_append]
        have hdiv : n / 10 < 10 ^ f := by
          have : n < 10 ^ f * 10 := by rw [← pow_succ]; exact hn
          omega
        rw [valD_append, ih (n / 10) hdiv a]
        simp only [List.foldl_cons, List.foldl_nil, List.length_append,
          List.length_singleton, digCh_toNat _ (Nat.mod_lt _ (by omega))]
        rw [pow_succ]
        have h10 : 0 < (10 : Nat) := by norm_num
        have := Nat.div_add_mod n 10
        ring_nf
        omega

theorem natDigits_digits (n : Nat) : ∀ c ∈ natDigits n, c.isDigit = true := by
  intro c hc
  by_cases hn : n = 0
  · simp [natDigits, hn] at hc; subst hc; decide
  · rw [natDigits, if_neg hn] at hc
    exact natDigitsCore_digits (n + 1) n c hc

theorem natDigits_val (n : Nat) :
    (natDigits n).foldl (fun v c => v * 10 + (c.toNat - 48)) 0 = n := by
  by_cases hn : n = 0
  · subst hn; decide
  · rw [natDigits, if_neg hn,
      natDigitsCore_val (n + 1) n (lt_of_lt_of_le (Nat.lt_pow_self (by norm_num) n)
        (Nat.pow_le_pow_right (by norm_num) (by omega))) 0]
    simp

theorem natDigits_ne_nil (n : Nat) : natDigits n ≠ [] := by
  by_cases hn : n = 0
  · simp [natDigits, hn]
  · rw [natDigits, if_neg hn, natDigitsCore, if_neg hn, natDigitsCore_append]
    simp

theorem parseDigitsAcc_spec (ds : List Char) (hds : ∀ c ∈ ds, c.isDigit = true) :
    ∀ rest, headNotDigit rest → ∀ acc,
      parseDigitsAcc (ds ++ rest) acc =
        (ds.foldl (fun v c => v * 10 + (c.toNat - 48)) acc, rest) := by
  induction ds with
  | nil =>
      intro rest hrest acc
      cases rest with
      | nil => rfl
      | cons c r =>
          simp only [headNotDigit] at hrest
          simp [parseDigitsAcc, hrest]
  | cons d ds ih =>
      intro rest hrest acc
      have hd : d.isDigit = true := hds d (by simp)
      simp only [List.cons_append, parseDigitsAcc, hd, if_pos, List.foldl_cons]
      exact ih (fun c hc => hds c (by simp [hc])) rest hrest _

theorem parseNatChars_natDigits (n : Nat) (rest : List Char) (hrest : headNotDigit rest) :
    parseNatChars (natDigits n ++ rest) = some (n, rest) := by
  obtain ⟨d, ds, hds⟩ := List.exists_cons_of_ne_nil (natDigits_ne_nil n)
  have hdig := natDigits_digits n
  rw [hds] at hdig ⊢
  have hd : d.isDigit = true := hdig d (by simp)
  rw [List.cons_append, parseNatChars, if_pos hd,
    parseDigitsAcc_spec ds (fun c hc => hdig c (by simp [hc])) rest hrest]
  have hval : ds.foldl (fun v c => v * 10 + (c.toNat - 48)) (d.toNat - 48) = n := by
    have := natDigits_val n
    rw [hds] at this
    simpa using this
  rw [hval]

theorem natDigits_head_not_minus (n : Nat) :
    ∀ d ds, natDigits n = d :: ds → (d == '-') = false := by
  intro d ds hds
  have hd : d.isDigit = true := natDigits_digits n d (by simp [hds])
  simp only [beq_eq_false_iff_ne, ne_eq]
  intro hc; subst hc; simp [Char.isDigit] at hd

theorem parseJNum_intChars (n : Int) (rest : List Char) (hrest : headNotDigit rest) :
    parseJNum (intChars n ++ rest) = some (n, rest) := by
  by_cases hn : n < 0
  · rw [intChars, if_pos hn, List.cons_append, parseJNum]
    simp only [beq_self_eq_true, if_true, parseNatChars_natDigits n.natAbs rest hrest,
      Option.map_some']
    have hna : -((n.natAbs : Nat) : Int) = n := by omega
    rw [hna]
  · rw [intChars, if_neg hn]
    obtain ⟨d, ds, hds⟩ := List.exists_cons_of_ne_nil (natDigits_ne_nil n.toNat)
    rw [hds, List.cons_append, parseJNum, natDigits_head_not_minus n.toNat d ds hds]
    simp only [Bool.false_eq_true, if_false]
    rw [← List.cons_append, ← hds, parseNatChars_natDigits n.toNat rest hrest,
      Option.map_some']
    have hna : ((n.toNat : Nat) : Int) = n := by omega
    rw [hna]

theorem string_mk_data (s : String) : String.mk s.data = s := rfl

theorem valWf_vstr (v : JVal) (h : ValWf v) : ∀ s, v = JVal.vstr s → StrOkChars s.data := by
  intro s hs
  subst hs
  exact h

theorem intChars_head (n : Int) :
    ∀ d ds, intChars n = d :: ds → (d == '"') = false ∧ (d == '{') = false := by
  intro d ds hds
  by_cases hn : n < 0
  · rw [intChars, if_pos hn] at hds
    cases hds
    exact ⟨by decide, by decide⟩
  · rw [intChars, if_neg hn] at hds
    have hd : d.isDigit = true := natDigits_digits n.toNat d (by simp [hds])
    refine ⟨?_, ?_⟩ <;>
      (simp only [beq_eq_false_iff_ne, ne_eq]; intro hc; subst hc; exact absurd hd (by decide))

theorem parseJVal_print (v : JVal) (rest : List Char) (hrest : headNotDigit rest)
    (hv : ∀ s, v = JVal.vstr s → StrOkChars s.data) :
    parseJVal (printJVal v ++ rest) = some (v, rest) := by
  cases v with
  | vstr s =>
      have hs : StrOkChars s.data := hv s rfl
      have : printJVal (JVal.vstr s) ++ rest = '"' :: (s.data ++ '"' :: rest) := by
        simp [printJVal, jstr, escape_clean s.data hs]
      rw [this, parseJVal, if_pos (by decide), parseJStr_clean s.data hs rest,
        Option.map_some', string_mk_data]
  | vnum n =>
      obtain ⟨d, ds, hds⟩ :
          ∃ d ds, intChars n = d :: ds := by
        by_cases hn : n < 0
        · exact ⟨'-', natDigits n.natAbs, by rw [intChars, if_pos hn]⟩
        · obtain ⟨d, ds, hds⟩ := List.exists_cons_of_ne_nil (natDigits_ne_nil n.toNat)
          exact ⟨d, ds, by rw [intChars, if_neg hn, hds]⟩
      have hq := (intChars_head n d ds hds).1
      rw [printJVal, hds, List.cons_append, parseJVal, hq]
      simp only [Bool.false_eq_true, if_false]
      rw [← List.cons_append, ← hds, parseJNum_intChars n rest hrest, Option.map_some']

theorem printPair_form (p : String × JVal) :
    printPair p ++ '"' :: [] ≠ [] := by simp [printPair, jstr]

theorem parsePairs_print (ps : Claims) :
    ps ≠ [] → PairsWf ps →
      ∀ fuel, ps.length ≤ fuel → ∀ tail,
        parsePairs fuel (sepComma (ps.map printPair) ++ '}' :: tail) = some (ps, tail) := by
  induction ps with
  | nil => intro h; exact absurd rfl h
  | cons p ps ih =>
      intro _ hwf fuel hfuel tail
      obtain ⟨hk, hv⟩ := hwf p (by simp)
      cases fuel with
      | zero => simp at hfuel
      | succ f =>
          have step : ∀ X, headNotDigit X →
              parsePairs (f + 1) (printPair p ++ X) =
                (match X with
                  | [] => none
                  | c2 :: r4 =>
                    if c2 == ',' then (parsePairs f r4).map (fun q => (p :: q.1, q.2))
                    else if c2 == '}' then some ([p], r4)
                    else none) := by
            intro X hX
            have hform : printPair p ++ X =
                '"' :: (p.1.data ++ '"' :: (':' :: (printJVal p.2 ++ X))) := by
              simp [printPair, jstr, escape_clean p.1.data hk]
            rw [hform, parsePairs]
            simp only [parseJStr_clean p.1.data hk,
              parseJVal_print p.2 X hX (valWf_vstr p.2 hv),
              string_mk_data, Prod.mk.eta]
            norm_num
          cases ps with
          | nil =>
              rw [show (([p] : Claims).map printPair) = [printPair p] from rfl,
                show sepComma [printPair p] = printPair p from rfl,
                step ('}' :: tail) (by simp [headNotDigit])]
              simp
          | cons q ps2 =>
              rw [show ((p :: q :: ps2).map printPair) = printPair p :: printPair q :: ps2.map printPair from rfl,
                show sepComma (printPair p :: printPair q :: ps2.map printPair) =
                  printPair p ++ ',' :: sepComma (printPair q :: ps2.map printPair) from rfl,
                List.append_assoc, List.cons_append,
                step (',' :: (sepComma (printPair q :: ps2.map printPair) ++ '}' :: tail))
                  (by simp [headNotDigit])]
              have hrec := ih (by simp) (fun r hr => hwf r (by simp [hr])) f
                (by simp only [List.length_cons] at hfuel ⊢; omega) tail
              rw [show ((q :: ps2).map printPair) = printPair q :: ps2.map printPair from rfl] at hrec
              simp [hrec]

theorem printPair_cons (p : String × JVal) :
    printPair p = '"' :: ((p.1.data.map escChar).flatten ++ '"' :: (':' :: printJVal p.2)) := by
  simp [printPair, jstr]

theorem sepComma_cons (p : String × JVal) (ps : Claims) :
    ∃ t, sepComma ((p :: ps).map printPair) = '"' :: t := by
  cases ps with
  | nil => exact ⟨_, printPair_cons p⟩
  | cons q l =>
      refine ⟨(p.1.data.map escChar).flatten ++ '"' :: (':' :: printJVal p.2) ++
        ',' :: sepComma ((q :: l).map printPair), ?_⟩
      simp only [List.map_cons, sepComma, printPair_cons p, List.cons_append,
        List.append_assoc]

theorem sepComma_length_ge (ps : Claims) :
    ps.length ≤ (sepComma (ps.map printPair)).length + 1 := by
  induction ps with
  | nil => simp
  | cons p ps ih =>
      cases ps with
      | nil => simp
      | cons q l =>
          simp only [List.map_cons, sepComma, List.length_cons, List.length_append] at ih ⊢
          omega

theorem parseClaims_printObj (c : Claims) (hwf : PairsWf c) :
    parseClaims (printObj c) = some c := by
  cases c with
  | nil => rfl
  | cons p ps =>
      obtain ⟨t, ht⟩ := sepComma_cons p ps
      rw [List.map_cons] at ht
      have hbody : printObj (p :: ps) = '{' :: ('"' :: (t ++ '}' :: [])) := by
        simp [printObj, ht]
      rw [hbody, parseClaims]
      simp only [show (('"' : Char) == '}') = false from by decide, Bool.false_eq_true,
        if_false, show (('{' : Char) == '{') = true from by decide, if_true]
      have hr : ('"' :: (t ++ '}' :: [])) = sepComma ((p :: ps).map printPair) ++ '}' :: [] := by
        rw [List.map_cons, ht, List.cons_append]
      rw [hr, parsePairs_print (p :: ps) (by simp) hwf _
        (by
          have h1 := sepComma_length_ge (p :: ps)
          have h2 : (sepComma ((p :: ps).map printPair) ++ '}' :: []).length =
              (sepComma ((p :: ps).map printPair)).length + 1 := by simp
          omega) []]

/-! ### Printed JSON is ASCII -/

theorem natDigitsCore_ascii (fuel : Nat) :
    ∀ n, ∀ c ∈ natDigitsCore fuel n [], c.toNat < 0x80 := by
  induction fuel with
  | zero => intro n c hc; simp [natDigitsCore] at hc
  | succ f ih =>
      intro n c hc
      by_cases hn : n = 0
      · simp [natDigitsCore, hn] at hc
      · rw [natDigitsCore, if_neg hn, natDigitsCore_append] at hc
        rcases List.mem_append.mp hc with h | h
        · exact ih (n / 10) c h
        · simp only [List.mem_singleton] at h
          subst h
          rw [digCh_toNat _ (Nat.mod_lt _ (by omega))]
          omega

theorem natDigits_ascii (n : Nat) : ∀ c ∈ natDigits n, c.toNat < 0x80 := by
  intro c hc
  by_cases hn : n = 0
  · simp [natDigits, hn] at hc; subst hc; decide
  · rw [natDigits, if_neg hn] at hc
    exact natDigitsCore_ascii (n + 1) n c hc

theorem intChars_ascii (n : Int) : ∀ c ∈ intChars n, c.toNat < 0x80 := by
  intro c hc
  by_cases hn : n < 0
  · rw [intChars, if_pos hn] at hc
    rcases List.mem_cons.mp hc with h | h
    · subst h; decide
    · exact natDigits_ascii _ c h
  · rw [intChars, if_neg hn] at hc
    exact natDigits_ascii _ c hc

theorem printJVal_ascii (v : JVal) (hv : ∀ s, v = JVal.vstr s → StrOkChars s.data) :
    ∀ c ∈ printJVal v, c.toNat < 0x80 := by
  intro c hc
  cases v with
  | vstr s =>
      have hs := hv s rfl
      rw [printJVal, jstr, escape_clean s.data hs] at hc
      rcases List.mem_cons.mp hc with h | h
      · subst h; decide
      · rcases List.mem_append.mp h with h2 | h2
        · exact lt_trans (hs c h2).2.1 (by norm_num)
        · simp only [List.mem_singleton] at h2; subst h2; decide
  | vnum n => exact intChars_ascii n c hc

theorem printPair_ascii (p : String × JVal) (hk : StrOkChars p.1.data)
    (hv : ∀ s, p.2 = JVal.vstr s → StrOkChars s.data) :
    ∀ c ∈ printPair p, c.toNat < 0x80 := by
  intro c hc
  rw [printPair, jstr, escape_clean p.1.data hk] at hc
  rcases List.mem_append.mp hc with h | h
  · rcases List.mem_cons.mp h with h2 | h2
    · subst h2; decide
    · rcases List.mem_append.mp h2 with h3 | h3
      · exact lt_trans (hk c h3).2.1 (by norm_num)
      · simp only [List.mem_singleton] at h3; subst h3; decide
  · rcases List.mem_cons.mp h with h2 | h2
    · subst h2; decide
    · exact printJVal_ascii p.2 hv c h2

theorem sepComma_mem (L : List (List Char)) (c : Char) (hc : c ∈ sepComma L) :
    c = ',' ∨ ∃ x ∈ L, c ∈ x := by
  induction L with
  | nil => simp [sepComma] at hc
  | cons x xs ih =>
      cases xs with
      | nil =>
          simp only [sepComma] at hc
          exact Or.inr ⟨x, by simp, hc⟩
      | cons y ys =>
          simp only [sepComma] at hc
          rcases List.mem_append.mp hc with h | h
          · exact Or.inr ⟨x, by simp, h⟩
          · rcases List.mem_cons.mp h with h2 | h2
            · exact Or.inl h2
            · rcases ih h2 with h3 | ⟨z, hz, hcz⟩
              · exact Or.inl h3
              · exact Or.inr ⟨z, by simp [hz], hcz⟩

theorem printObj_ascii (c : Claims) (h : PairsWf c) :
    ∀ ch ∈ printObj c, ch.toNat < 0x80 := by
  intro ch hch
  rw [printObj] at hch
  rcases List.mem_cons.mp hch with h1 | h1
  · subst h1; decide
  · rcases List.mem_append.mp h1 with h2 | h2
    · rcases sepComma_mem _ ch h2 with h3 | ⟨x, hx, hcx⟩
      · subst h3; decide
      · obtain ⟨p, hp, rfl⟩ := List.mem_map.mp hx
        obtain ⟨hk, hv⟩ := h p hp
        exact printPair_ascii p hk (valWf_vstr p.2 hv) ch hcx
    · simp only [List.mem_singleton] at h2; subst h2; decide

/-! ### Decoding a signed token -/

theorem claimsWf_pairsWf (c : Claims) (h : ClaimsWf c) : PairsWf c := by
  intro p hp
  obtain ⟨_, _, h3⟩ := h
  obtain ⟨hk, hv, _⟩ := h3 p hp
  exact ⟨hk, hv⟩

theorem joseHeader_pairsWf (st : Settings) (h : SettingsWf st) :
    PairsWf (joseHeader st) := by
  intro p hp
  simp only [joseHeader, List.mem_cons, List.mem_singleton] at hp
  rcases hp with h1 | h1
  · subst h1
    exact ⟨show StrOkChars "alg".data by decide, h⟩
  · simp only [List.not_mem_nil, or_false] at h1
    subst h1
    exact ⟨show StrOkChars "typ".data by decide, by decide⟩

theorem joseHeader_alg (st : Settings) :
    Claims.get? (joseHeader st) "alg" = some (JVal.vstr st.ALGORITHM) := rfl

/-- Decoding a token signed by `jwsSign` reaches claim validation with exactly
the signed claims: segment split, base64url, UTF-8, JSON and signature check
all invert. -/
theorem jwt_decode_jwsSign (mac : Mac) (st : Settings) (payloadObj : Claims) (now : Int)
    (hst : SettingsWf st) (hmac : MacBytes mac) (hwf : PairsWf payloadObj) :
    jwt_decode mac st (jwsSign mac st payloadObj) now = validate_claims payloadObj now := by
  have hhdr : PairsWf (joseHeader st) := joseHeader_pairsWf st hst
  have hH : ∀ ch ∈ printObj (joseHeader st), ch.toNat < 0x80 := printObj_ascii _ hhdr
  have hP : ∀ ch ∈ printObj payloadObj, ch.toNat < 0x80 := printObj_ascii _ hwf
  have htok : jwsSign mac st payloadObj =
      (b64e (utf8 (printObj (joseHeader st))) ++ '.' :: b64e (utf8 (printObj payloadObj)))
        ++ '.' :: b64e (mac (utf8 st.SECRET_KEY.data)
          (utf8 (b64e (utf8 (printObj (joseHeader st))) ++ '.' ::
            b64e (utf8 (printObj payloadObj))))) := rfl
  have hsplit1 := splitLastDot_append
    (b64e (utf8 (printObj (joseHeader st))) ++ '.' :: b64e (utf8 (printObj payloadObj)))
    (b64e (mac (utf8 st.SECRET_KEY.data)
      (utf8 (b64e (utf8 (printObj (joseHeader st))) ++ '.' ::
        b64e (utf8 (printObj payloadObj))))))
    (b64e_no_dot _)
  have hsplit2 : splitFirstDot (b64e (utf8 (printObj (joseHeader st))) ++ '.' ::
      b64e (utf8 (printObj payloadObj))) =
      some (b64e (utf8 (printObj (joseHeader st))), b64e (utf8 (printObj payloadObj))) :=
    splitFirst_append _ _ _ _ (b64e_no_dot _) (by decide)
  simp only [htok, jwt_decode, hsplit1, hsplit2,
    b64d_b64e _ (utf8_ascii_bytes _ hH), utf8d_utf8 _ hH, parseClaims_printObj _ hhdr,
    b64d_b64e _ (utf8_ascii_bytes _ hP),
    b64d_b64e _ (fun b hb => hmac _ _ b hb),
    joseHeader_alg st]
  rw [if_neg (by simp), if_neg (by simp)]
  simp only [utf8d_utf8 _ hP, parseClaims_printObj _ hwf]

/-! ### Claim-mapping updates and claim validation -/

theorem get?_update_self (c : Claims) (k : String) (v : JVal) :
    Claims.get? (Claims.update c k v) k = some v := by
  induction c with
  | nil => simp [Claims.update, Claims.get?]
  | cons p rest ih =>
      by_cases hk : p.1 == k
      · simp [Claims.update, hk, Claims.get?, List.find?]
      · simp only [Claims.update]
        rw [show (if p.1 == k then (p.1, v) :: rest else p :: Claims.update rest k v) =
          p :: Claims.update rest k v from by simp [hk]]
        simp only [Claims.get?, List.find?] at ih ⊢
        rw [show (p.1 == k) = false from by simpa using hk]
        exact ih

theorem get?_update_ne (c : Claims) (k k' : String) (v : JVal) (hne : (k' == k) = false) :
    Claims.get? (Claims.update c k v) k' = Claims.get? c k' := by
  have hkk : (k == k') = false := by
    simp only [beq_eq_false_iff_ne, ne_eq] at hne ⊢
    exact fun hc => hne hc.symm
  induction c with
  | nil => simp [Claims.update, Claims.get?, List.find?, hkk]
  | cons p rest ih =>
      by_cases hk : (p.1 == k) = true
      · have hpk : p.1 = k := by simpa using hk
        have hpk' : (p.1 == k') = false := by rw [hpk]; exact hkk
        simp [Claims.update, hk, Claims.get?, List.find?, hpk']
      · have hkf : (p.1 == k) = false := by simpa using hk
        simp only [Claims.update, hkf, Bool.false_eq_true, if_false]
        simp only [Claims.get?, List.find?] at ih ⊢
        by_cases hp : (p.1 == k') = true
        · simp [hp]
        · have hpf : (p.1 == k') = false := by simpa using hp
          simp only [hpf] at ih ⊢
          exact ih

theorem update_keys (c : Claims) (k : String) (v : JVal) :
    (Claims.update c k v).map Prod.fst = c.map Prod.fst ∨
      ((Claims.update c k v).map Prod.fst = c.map Prod.fst ++ [k] ∧
        k ∉ c.map Prod.fst) := by
  induction c with
  | nil => right; simp [Claims.update]
  | cons p rest ih =>
      by_cases hk : p.1 == k
      · left; simp [Claims.update, hk]
      · have hne : ¬ p.1 = k := by simpa using hk
        simp only [Claims.update]
        rw [show (if p.1 == k then (p.1, v) :: rest else p :: Claims.update rest k v) =
          p :: Claims.update rest k v from by simp [hk]]
        rcases ih with h | ⟨h1, h2⟩
        · left; simp [h]
        · right
          constructor
          · simp [h1]
          · simp only [List.map_cons, List.mem_cons]
            rintro (hc | hc)
            · exact hne hc.symm
            · exact h2 hc

theorem mem_update (c : Claims) (k : String) (v : JVal) :
    ∀ p ∈ Claims.update c k v,
      p ∈ c ∨ (p.2 = v ∧ (p.1 = k ∨ p.1 ∈ c.map Prod.fst)) := by
  induction c with
  | nil =>
      intro p hp
      simp only [Claims.update, List.mem_singleton] at hp
      subst hp
      exact Or.inr ⟨rfl, Or.inl rfl⟩
  | cons q rest ih =>
      intro p hp
      by_cases hk : q.1 == k
      · simp only [Claims.update, hk, if_true, List.mem_cons] at hp
        rcases hp with h | h
        · subst h
          exact Or.inr ⟨rfl, Or.inr (by simp)⟩
        · exact Or.inl (by simp [h])
      · simp only [Claims.update] at hp
        rw [show (if q.1 == k then (q.1, v) :: rest else q :: Claims.update rest k v) =
          q :: Claims.update rest k v from by simp [hk]] at hp
        rcases List.mem_cons.mp hp with h | h
        · exact Or.inl (by simp [h])
        · rcases ih p h with h2 | ⟨h2, h3⟩
          · exact Or.inl (by simp [h2])
          · refine Or.inr ⟨h2, ?_⟩
            rcases h3 with h4 | h4
            · exact Or.inl h4
            · exact Or.inr (by simp [h4])

theorem claimsWf_update_exp (c : Claims) (e : Int) (h : ClaimsWf c) :
    ClaimsWf (Claims.update c "exp" (JVal.vnum e)) := by
  obtain ⟨hnd, hsub, hmem⟩ := h
  refine ⟨?_, ?_, ?_⟩
  · rcases update_keys c "exp" (JVal.vnum e) with hu | ⟨hu, hni⟩
    · rw [hu]; exact hnd
    · rw [hu]
      exact List.Nodup.append hnd (List.nodup_singleton _)
        (by simpa [List.disjoint_singleton] using hni)
  · have : Claims.get? (Claims.update c "exp" (JVal.vnum e)) "sub" = Claims.get? c "sub" :=
      get?_update_ne c "exp" "sub" (JVal.vnum e) (by decide)
    simp only [subShapeOk, this]
    exact hsub
  · intro p hp
    rcases mem_update c "exp" (JVal.vnum e) p hp with hin | ⟨hval, hkey⟩
    · exact hmem p hin
    · refine ⟨?_, ?_, ?_⟩
      · rcases hkey with hk | hk
        · rw [hk]; decide
        · obtain ⟨q, hq, hq1⟩ := List.mem_map.mp hk
          rw [← hq1]
          exact (hmem q hq).1
      · rw [hval]; trivial
      · rcases hkey with hk | hk
        · rw [hk]; decide
        · obtain ⟨q, hq, hq1⟩ := List.mem_map.mp hk
          rw [← hq1]
          exact (hmem q hq).2.2

theorem validate_sub_of_shape (c : Claims) (h : subShapeOk c = true) :
    (match Claims.get? c "sub" with
      | some (JVal.vnum _) => (Except.error JoseError.claimFormatInvalid : Except JoseError Claims)
      | _ => Except.ok c) = Except.ok c := by
  simp only [subShapeOk] at h
  rcases hg : Claims.get? c "sub" with _ | v
  · simp
  · cases v with
    | vstr s => simp
    | vnum n => rw [hg] at h; simp at h

theorem validate_claims_update_exp (c : Claims) (e now : Int) (h : ClaimsWf c) :
    validate_claims (Claims.update c "exp" (JVal.vnum e)) now =
      if e < now then Except.error JoseError.signatureExpired
      else Except.ok (Claims.update c "exp" (JVal.vnum e)) := by
  have hc' := claimsWf_update_exp c e h
  rw [validate_claims, get?_update_self]
  simp only [pyInt?]
  by_cases he : e < now
  · simp [he]
  · simp only [he, if_false]
    exact validate_sub_of_shape _ hc'.2.1

theorem validate_claims_no_exp (c : Claims) (now : Int) (hexp : Claims.get? c "exp" = none)
    (hsub : subShapeOk c = true) :
    validate_claims c now = Except.ok c := by
  rw [validate_claims, hexp]
  exact validate_sub_of_shape c hsub

/-! ### Claim theorems -/

theorem macSum_bytes : MacBytes macSum := by
  intro k m b hb
  simp only [macSum, List.mem_singleton] at hb
  subst hb
  exact Nat.mod_lt _ (by norm_num)

/-- C1: with no `Authorization` header the OAuth2 scheme rejects the request
with HTTP 401 and a `WWW-Authenticate: Bearer` header before the handler runs
— but with a present bearer token that fails verification, `get_current_user`
does not raise 401: `verify_access_token` returns `None` instead of raising,
the dead `except` branch never fires, and the handler receives `None` claims.
The second conjunct evaluates the code at the failing input. -/
theorem C1_invalid_token_reaches_handler :
    (∀ (mac : Mac) (st : Settings) (now : Int),
        get_current_user mac st none now =
          Except.error ⟨401, "Not authenticated", some "Bearer"⟩) ∧
    (∀ (mac : Mac) (st : Settings) (now : Int),
        get_current_user mac st (some "Bearer garbage") now = Except.ok none) := by
  constructor
  · intro mac st now
    rfl
  · intro mac st now
    rfl

/-- C2 counterexample: a token issued for `{"sub": "alice"}` at time 0 with a
1800-second ttl, verified exactly at `issued_time + ttl` (= 1800), is accepted
and returns the claims — not a `TokenExpired` failure, because jose only
rejects when `exp < now` (strictly).  This refutes the claim's "at or after
issuance time + ttl yields TokenExpired". -/
theorem C2_boundary_counterexample :
    verify_access_token macSum defaultSettings
      (String.mk (create_access_token macSum defaultSettings
        [("sub", JVal.vstr "alice")] 0 (some 1800))) 1800
      = some [("sub", JVal.vstr "alice"), ("exp", JVal.vnum 1800)] := by
  decide

/-- C2 (amended): for every claim mapping (well-formed for the serialization
model) and ttl > 0, verifying `issue(C, ttl)` at `now ≤ issued + ttl` returns
exactly `C` with `exp` overwritten to `issued + ttl`; at `now > issued + ttl`
verification fails — and the failure surfaces as `None` from
`verify_access_token` (internally an expired-signature error), not as a
distinct `TokenExpired` value. -/
theorem C2_issue_verify_amended (mac : Mac) (st : Settings) (data : Claims)
    (now0 ttl now : Int) (hst : SettingsWf st) (hmac : MacBytes mac)
    (hdata : ClaimsWf data) (httl : 0 < ttl) :
    (now ≤ now0 + ttl →
      verify_access_token mac st
        (String.mk (create_access_token mac st data now0 (some ttl))) now
        = some (Claims.update data "exp" (JVal.vnum (now0 + ttl)))) ∧
    (now0 + ttl < now →
      verify_access_token mac st
        (String.mk (create_access_token mac st data now0 (some ttl))) now = none) := by
  have hne : ¬ ttl = 0 := by omega
  have hcreate : create_access_token mac st data now0 (some ttl) =
      jwsSign mac st (Claims.update data "exp" (JVal.vnum (now0 + ttl))) := by
    simp only [create_access_token, hne, if_false]
  have hwf' : ClaimsWf (Claims.update data "exp" (JVal.vnum (now0 + ttl))) :=
    claimsWf_update_exp data _ hdata
  have hver : verify_access_token mac st
      (String.mk (create_access_token mac st data now0 (some ttl))) now =
      (validate_claims (Claims.update data "exp" (JVal.vnum (now0 + ttl))) now).toOption := by
    rw [verify_access_token,
      show (String.mk (create_access_token mac st data now0 (some ttl))).data =
        create_access_token mac st data now0 (some ttl) from rfl,
      hcreate, jwt_decode_jwsSign mac st _ now hst hmac (claimsWf_pairsWf _ hwf')]
  rw [validate_claims_update_exp data _ now hdata] at hver
  constructor
  · intro hle
    rw [hver, if_neg (by omega)]
    rfl
  · intro hlt
    rw [hver, if_pos (by omega)]
    rfl

/-- C2 witness: the amended theorem evaluated at `{"sub": "alice"}`, issuance 0,
ttl 1800, verification times 60 (valid) and 3600 (expired). -/
theorem C2_issue_verify_amended_witness :
    verify_access_token macSum defaultSettings
      (String.mk (create_access_token macSum defaultSettings
        [("sub", JVal.vstr "alice")] 0 (some 1800))) 60
      = some [("sub", JVal.vstr "alice"), ("exp", JVal.vnum 1800)] ∧
    verify_access_token macSum defaultSettings
      (String.mk (create_access_token macSum defaultSettings
        [("sub", JVal.vstr "alice")] 0 (some 1800))) 3600 = none := by
  constructor
  · exact (C2_issue_verify_amended macSum defaultSettings [("sub", JVal.vstr "alice")]
      0 1800 60 (by decide) macSum_bytes (by decide) (by decide)).1 (by decide)
  · exact (C2_issue_verify_amended macSum defaultSettings [("sub", JVal.vstr "alice")]
      0 1800 3600 (by decide) macSum_bytes (by decide) (by decide)).2 (by decide)

/-- C8: a token that is structurally valid and correctly signed but carries no
`exp` claim is accepted by the Token Verifier, which returns its decoded
claims: no expiry check is applied when `exp` is absent. -/
theorem C8_missing_exp_accepted (mac : Mac) (st : Settings) (data : Claims) (now : Int)
    (hst : SettingsWf st) (hmac : MacBytes mac) (hdata : ClaimsWf data)
    (hexp : Claims.get? data "exp" = none) :
    verify_access_token mac st (String.mk (jwsSign mac st data)) now = some data := by
  rw [verify_access_token,
    show (String.mk (jwsSign mac st data)).data = jwsSign mac st data from rfl,
    jwt_decode_jwsSign mac st data now hst hmac (claimsWf_pairsWf data hdata),
    validate_claims_no_exp data now hexp hdata.2.1]
  rfl

/-- C8 witness: a signed `{"sub": "bob"}` token with no `exp` verifies at an
arbitrary late time. -/
theorem C8_missing_exp_accepted_witness :
    verify_access_token macSum defaultSettings
      (String.mk (jwsSign macSum defaultSettings [("sub", JVal.vstr "bob")])) 999999
      = some [("sub", JVal.vstr "bob")] :=
  C8_missing_exp_accepted macSum defaultSettings [("sub", JVal.vstr "bob")] 999999
    (by decide) macSum_bytes (by decide) (by decide)

/-- C10: `verify_access_token` is total — it returns the decoded claims of a
successful decode and `None` for every failure cause, so callers cannot tell
a malformed token, a bad signature or an expired token apart: three tokens
failing for those three distinct internal reasons all yield `None`. -/
theorem C10_failure_collapse :
    (∀ (mac : Mac) (st : Settings) (t : String) (now : Int) (e : JoseError),
        jwt_decode mac st t.data now = Except.error e →
          verify_access_token mac st t now = none) ∧
    (∀ (mac : Mac) (st : Settings) (t : String) (now : Int) (c : Claims),
        jwt_decode mac st t.data now = Except.ok c →
          verify_access_token mac st t now = some c) ∧
    jwt_decode macSum defaultSettings "abc".data 0 = Except.error JoseError.notEnoughSegments ∧
    jwt_decode macSum defaultSettings badSigTok 0 =
      Except.error JoseError.signatureVerificationFailed ∧
    jwt_decode macSum defaultSettings expiredTok 60 = Except.error JoseError.signatureExpired ∧
    verify_access_token macSum defaultSettings "abc" 0 = none ∧
    verify_access_token macSum defaultSettings (String.mk badSigTok) 0 = none ∧
    verify_access_token macSum defaultSettings (String.mk expiredTok) 60 = none := by
  refine ⟨?_, ?_, by decide, by decide, by decide, by decide, by decide, by decide⟩
  · intro mac st t now e h
    rw [verify_access_token, h]
    rfl
  · intro mac st t now c h
    rw [verify_access_token, h]
    rfl

/-- C10 witness: the collapse conjunct applied to a concrete malformed token. -/
theorem C10_failure_collapse_witness :
    verify_access_token macSum defaultSettings "abc" 0 = none :=
  C10_failure_collapse.1 macSum defaultSettings "abc" 0 JoseError.notEnoughSegments (by decide)

set_option maxRecDepth 8000 in
/-- C3 counterexample: altering one byte of an issued token's signature
segment (its final base64url character, whose low bits are unused trailing
bits of the encoding) leaves the decoded signature bytes unchanged, so the
Token Verifier accepts the tampered token and returns its claims — neither a
`TokenSignatureInvalid` nor any other failure.  This refutes "altering any
byte of the signature segment causes TokenSignatureInvalid". -/
theorem C3_signature_trailing_bits_counterexample :
    c3tampered ≠ c3tok ∧
    c3tampered.length = c3tok.length ∧
    c3tampered.dropLast = c3tok.dropLast ∧
    jwt_decode macSum defaultSettings c3tampered 60 =
      Except.ok [("sub", JVal.vstr "alice"), ("exp", JVal.vnum 1800)] ∧
    verify_access_token macSum defaultSettings (String.mk c3tampered) 60 =
      some [("sub", JVal.vstr "alice"), ("exp", JVal.vnum 1800)] := by
  refine ⟨by decide, by decide, by decide, by decide, by decide⟩

/-- C3 (amended): replacing the payload segment of a signed token with any
different base64url segment that still decodes makes the internal decode fail
with the signature-verification error — provided the MAC of the altered
signing input differs from the embedded signature, which is the
cryptographic purpose of the MAC — and the public `verify_access_token`
reports this as `None`, indistinguishable from every other failure. -/
theorem C3_payload_tamper_amended (mac : Mac) (st : Settings) (payloadObj : Claims)
    (pSeg : List Char) (now : Int)
    (hst : SettingsWf st) (hmac : MacBytes mac)
    (halpha : ∀ c ∈ pSeg, isB64 c = true)
    (hdecode : (b64d pSeg).isSome = true)
    (hmacne : mac (utf8 st.SECRET_KEY.data) (utf8 (headerSeg st ++ '.' :: pSeg)) ≠
      mac (utf8 st.SECRET_KEY.data) (utf8 (headerSeg st ++ '.' :: payloadSeg payloadObj))) :
    jwt_decode mac st (tokenWith mac st payloadObj pSeg) now =
      Except.error JoseError.signatureVerificationFailed ∧
    verify_access_token mac st (String.mk (tokenWith mac st payloadObj pSeg)) now = none := by
  have hhdr : PairsWf (joseHeader st) := joseHeader_pairsWf st hst
  have hH : ∀ ch ∈ printObj (joseHeader st), ch.toNat < 0x80 := printObj_ascii _ hhdr
  have hpdot : ∀ c ∈ pSeg, (c == '.') = false := by
    intro c hc
    have hb := halpha c hc
    simp only [beq_eq_false_iff_ne, ne_eq]
    intro hdot
    subst hdot
    exact absurd hb (by decide)
  have htok : tokenWith mac st payloadObj pSeg =
      (headerSeg st ++ '.' :: pSeg) ++ '.' :: b64e (mac (utf8 st.SECRET_KEY.data)
        (utf8 (headerSeg st ++ '.' :: payloadSeg payloadObj))) := by
    simp [tokenWith, List.append_assoc]
  obtain ⟨bs, hbs⟩ := Option.isSome_iff_exists.mp hdecode
  have hsplit1 := splitLastDot_append (headerSeg st ++ '.' :: pSeg)
    (b64e (mac (utf8 st.SECRET_KEY.data)
      (utf8 (headerSeg st ++ '.' :: payloadSeg payloadObj))))
    (b64e_no_dot _)
  have hsplit2 : splitFirstDot (headerSeg st ++ '.' :: pSeg) =
      some (headerSeg st, pSeg) :=
    splitFirst_append _ _ _ _ (b64e_no_dot _) (by decide)
  have hdec : jwt_decode mac st (tokenWith mac st payloadObj pSeg) now =
      Except.error JoseError.signatureVerificationFailed := by
    simp only [htok, jwt_decode, hsplit1, hsplit2]
    simp only [show b64d (headerSeg st) = some (utf8 (printObj (joseHeader st))) from
        b64d_b64e _ (utf8_ascii_bytes _ hH),
      utf8d_utf8 _ hH, parseClaims_printObj _ hhdr, hbs,
      b64d_b64e _ (fun b hb => hmac _ _ b hb), joseHeader_alg st]
    rw [if_neg (by simp), if_pos (fun hc => hmacne hc.symm)]
  refine ⟨hdec, ?_⟩
  rw [verify_access_token,
    show (String.mk (tokenWith mac st payloadObj pSeg)).data =
      tokenWith mac st payloadObj pSeg from rfl, hdec]
  rfl

/-- C3 witness: the amended theorem evaluated at `{"sub": "alice"}` with the
payload segment's first byte altered to a different base64url character. -/
theorem C3_payload_tamper_amended_witness :
    jwt_decode macSum defaultSettings
      (tokenWith macSum defaultSettings [("sub", JVal.vstr "alice")] c3pTampered) 60 =
      Except.error JoseError.signatureVerificationFailed ∧
    verify_access_token macSum defaultSettings
      (String.mk (tokenWith macSum defaultSettings [("sub", JVal.vstr "alice")] c3pTampered)) 60
      = none :=
  C3_payload_tamper_amended macSum defaultSettings [("sub", JVal.vstr "alice")]
    c3pTampered 60 (by decide) macSum_bytes (by decide) (by decide) (by decide)

/-- C4: `authenticate_user` never consults the User Directory or the Password
Hasher — it accepts exactly the hardcoded pair `("admin", "secret123")` — so
a user present in the directory with a matching stored hash (here `alice`,
whose persisted hash verifies against her password) is still rejected with
`None`.  The claim describes the spec's intended directory-backed flow, which
the source (flagged by the spec itself as a placeholder) does not implement. -/
theorem C4_hardcoded_admin_login :
    (∀ username password : String,
        UserApplicationService.authenticate_user username password =
          if username = "admin" ∧ password = "secret123" then some "admin" else none) ∧
    UserApplicationService.authenticate_user "alice" "wonderland" = none ∧
    (get_user_by_username dbAlice "alice").isSome = true ∧
    verify_password digestToy "wonderland"
      ((get_user_by_username dbAlice "alice").getD ⟨0, "", "", ""⟩).password_hash
      = Except.ok true := by
  refine ⟨?_, by decide, by decide, by decide⟩
  intro u p
  rw [UserApplicationService.authenticate_user]
  by_cases h1 : u = "admin"
  · by_cases h2 : p = "secret123"
    · simp [h1, h2]
    · simp [h1, h2]
  · simp [h1]

/-! ### Registration and password hashing -/

/-- C5 counterexample: with `alice` already persisted, the application-service
`register_user` (the one the auth router calls) does not fail with a
DuplicateUser condition — it attempts the insert and fails with the storage
layer's integrity error (an exception the router does not translate to a
400), refuting the claim for this cited implementation. -/
theorem C5_appservice_duplicate_counterexample :
    UserApplicationService.register_user digestToy saltToy dbAlice
      ⟨"alice", "pw", "other@example.com"⟩ = Except.error RegError.integrityError ∧
    RegError.integrityError ≠ RegError.duplicateUsername ∧
    RegError.integrityError ≠ RegError.duplicateEmail := by
  refine ⟨by decide, by decide, by decide⟩

/-- C5 (amended): the domain-service `register_user` (wired in the user
router) behaves as claimed — duplicate username, then duplicate email, are
rejected without persisting anything, and a fresh registration hashes the
password, persists one record with the storage-assigned identifier, and
returns it; the application-service `register_user` (wired in the auth
router) performs no duplicate check of its own and on a duplicate fails only
with the spec-modelled storage uniqueness constraint's integrity error. -/
theorem C5_register_user_amended (digest : BcryptDigest) (salt : String) (db : Db)
    (dto : UserCreateDTO) :
    ((get_user_by_username db dto.username).isSome = true →
      UserService.register_user digest salt db dto = Except.error RegError.duplicateUsername) ∧
    (get_user_by_username db dto.username = none →
      (get_user_by_email db dto.email).isSome = true →
      UserService.register_user digest salt db dto = Except.error RegError.duplicateEmail) ∧
    (get_user_by_username db dto.username = none →
      get_user_by_email db dto.email = none →
      UserService.register_user digest salt db dto = Except.ok
        (⟨db.next_id, dto.username, dto.email, get_password_hash digest salt dto.password⟩,
         ⟨db.users ++ [⟨db.next_id, dto.username, dto.email,
            get_password_hash digest salt dto.password⟩], db.next_id + 1⟩)) ∧
    ((get_user_by_username db dto.username).isSome = true →
      UserApplicationService.register_user digest salt db dto =
        Except.error RegError.integrityError) := by
  refine ⟨?_, ?_, ?_, ?_⟩
  · intro h
    rw [UserService.register_user, if_pos h]
  · intro h1 h2
    rw [UserService.register_user, if_neg (by rw [h1]; simp), if_pos h2]
  · intro h1 h2
    rw [UserService.register_user, if_neg (by rw [h1]; simp), if_neg (by rw [h2]; simp),
      create_user, db_insert_commit, if_neg (by rw [h1, h2]; simp)]
  · intro h
    rw [UserApplicationService.register_user, db_insert_commit, if_pos (Or.inl h)]

/-- C5 witness: the amended theorem at the one-user directory — the domain
service rejects the duplicate, the application service hits the integrity
error, and a fresh user is persisted with the next identifier. -/
theorem C5_register_user_amended_witness :
    UserService.register_user digestToy saltToy dbAlice
      ⟨"alice", "pw", "other@example.com"⟩ = Except.error RegError.duplicateUsername ∧
    UserApplicationService.register_user digestToy saltToy dbAlice
      ⟨"alice", "pw", "other@example.com"⟩ = Except.error RegError.integrityError ∧
    UserService.register_user digestToy saltToy dbAlice
      ⟨"bob", "pw", "bob@example.com"⟩ = Except.ok
        (⟨2, "bob", "bob@example.com", get_password_hash digestToy saltToy "pw"⟩,
         ⟨dbAlice.users ++ [⟨2, "bob", "bob@example.com",
            get_password_hash digestToy saltToy "pw"⟩], 3⟩) :=
  ⟨(C5_register_user_amended digestToy saltToy dbAlice _).1 (by decide),
   (C5_register_user_amended digestToy saltToy dbAlice _).2.2.2 (by decide),
   (C5_register_user_amended digestToy saltToy dbAlice _).2.2.1 (by decide) (by decide)⟩

/-- C6: a registration password longer than 72 UTF-8 bytes is rejected by the
pydantic field validator while the DTO is being constructed — with the
password-too-long message — so the registration flow fails before
`get_password_hash` can run on it. -/
theorem C6_password_length_rejected (username password email : String)
    (h : 72 < (utf8 password.data).length) :
    UserCreateDTO.validate username password email =
      Except.error (RegError.validation "Password cannot be longer than 72 bytes") ∧
    ∀ (digest : BcryptDigest) (salt : String) (db : Db),
      register_endpoint digest salt db username password email =
        Except.error (RegError.validation "Password cannot be longer than 72 bytes") := by
  have hval : password_length_check password =
      Except.error "Password cannot be longer than 72 bytes" := by
    rw [password_length_check, if_pos h]
  constructor
  · rw [UserCreateDTO.validate, hval]
  · intro digest salt db
    rw [register_endpoint, UserCreateDTO.validate, hval]

/-- C6 witness: a 73-byte ASCII password is rejected. -/
theorem C6_password_length_rejected_witness :
    UserCreateDTO.validate "bob" (String.mk (List.replicate 73 'a')) "bob@example.com" =
      Except.error (RegError.validation "Password cannot be longer than 72 bytes") :=
  (C6_password_length_rejected "bob" (String.mk (List.replicate 73 'a')) "bob@example.com"
    (by decide)).1

/-- A hash produced by `get_password_hash` parses back into its salt and
digest when the salt is 22 characters and the digest 31 (the bcrypt format
passlib emits). -/
theorem identify_get_password_hash (digest : BcryptDigest) (salt password : String)
    (hsalt : salt.length = 22)
    (hdg : (digest salt (bcryptTrunc (utf8 password.data))).length = 31) :
    identify_bcrypt? (get_password_hash digest salt password) =
      some (salt, digest salt (bcryptTrunc (utf8 password.data))) := by
  have hdata : (get_password_hash digest salt password).data =
      "$2b$12$".data ++ (salt.data ++ (digest salt (bcryptTrunc (utf8 password.data))).data) := by
    rw [get_password_hash, String.data_append, String.data_append, List.append_assoc]
  have hslen : salt.data.length = 22 := hsalt
  have hdlen : (digest salt (bcryptTrunc (utf8 password.data))).data.length = 31 := hdg
  rw [identify_bcrypt?, hdata]
  rw [if_pos ⟨by simp [List.length_append, hslen, hdlen], List.take_left' (by decide)⟩]
  simp only [List.drop_left' (show ("$2b$12$".data).length = 7 from by decide),
    List.take_left' hslen, List.drop_left' hslen, string_mk_data]

/-- C7 counterexample: `verify_password` on hash strings that match no bcrypt
form does not return `false` — the underlying passlib context raises
`UnknownHashError` to the caller. -/
theorem C7_malformed_hash_counterexample :
    verify_password digestToy "secret123" "" = Except.error PasslibError.unknownHash ∧
    verify_password digestToy "secret123" "not-a-valid-hash" =
      Except.error PasslibError.unknownHash := by
  exact ⟨by decide, by decide⟩

/-- C7 (amended): for every plaintext, a stored hash that does not parse as a
bcrypt hash makes `verify_password` raise `UnknownHashError` (never a `false`
return), while every hash produced by `get_password_hash` parses and yields a
boolean — `false`, without raising, exactly when the re-derived digest
differs. -/
theorem C7_verify_malformed_amended (digest : BcryptDigest) (plain : String) :
    (∀ hashed : String, identify_bcrypt? hashed = none →
      verify_password digest plain hashed = Except.error PasslibError.unknownHash) ∧
    (∀ salt password : String, salt.length = 22 →
      (digest salt (bcryptTrunc (utf8 password.data))).length = 31 →
      verify_password digest plain (get_password_hash digest salt password) =
        Except.ok (digest salt (bcryptTrunc (utf8 plain.data)) ==
          digest salt (bcryptTrunc (utf8 password.data)))) := by
  constructor
  · intro hashed h
    rw [verify_password, h]
  · intro salt password hsalt hdg
    rw [verify_password, identify_get_password_hash digest salt password hsalt hdg]

/-- C7 witness: the empty string raises; a real hash of `wonderland` verifies
`wonderland` to `true` without raising. -/
theorem C7_verify_malformed_amended_witness :
    verify_password digestToy "wonderland" "" = Except.error PasslibError.unknownHash ∧
    verify_password digestToy "wonderland"
      (get_password_hash digestToy saltToy "wonderland") = Except.ok true := by
  constructor
  · exact (C7_verify_malformed_amended digestToy "wonderland").1 "" (by decide)
  · exact ((C7_verify_malformed_amended digestToy "wonderland").2 saltToy "wonderland"
      (by decide) (by decide)).trans (by decide)

/-- C9 counterexample: bcrypt ignores password bytes beyond the 72nd, so for
the distinct passwords `"a" * 73 ≠ "a" * 72`, `verify(P1, hash(P2))` is
deterministically `true` — not false with overwhelming probability — refuting
the claim's second conjunct as stated for all distinct pairs. -/
theorem C9_truncation_counterexample :
    String.mk (List.replicate 73 'a') ≠ String.mk (List.replicate 72 'a') ∧
    verify_password digestToy (String.mk (List.replicate 73 'a'))
      (get_password_hash digestToy saltToy (String.mk (List.replicate 72 'a'))) =
      Except.ok true := by
  exact ⟨by decide, by decide⟩

/-- C9 (amended): for every password of at most 72 UTF-8 bytes,
`verify(P, hash(P))` is `true` for any salt and digest function; and
`verify(P1, hash(P2))` is `false` exactly for pairs whose truncated-password
digests differ — the collision-freedom that "with overwhelming probability"
asserts of the real bcrypt digest, and which fails outright when the two
passwords agree on their first 72 bytes. -/
theorem C9_hash_verify_amended (digest : BcryptDigest) (salt : String)
    (hsalt : salt.length = 22)
    (hdglen : ∀ s pw, (digest s pw).length = 31) :
    (∀ P : String, (utf8 P.data).length ≤ 72 →
      verify_password digest P (get_password_hash digest salt P) = Except.ok true) ∧
    (∀ P1 P2 : String,
      digest salt (bcryptTrunc (utf8 P1.data)) ≠ digest salt (bcryptTrunc (utf8 P2.data)) →
      verify_password digest P1 (get_password_hash digest salt P2) = Except.ok false) := by
  constructor
  · intro P _
    rw [verify_password, identify_get_password_hash digest salt P hsalt (hdglen _ _)]
    simp
  · intro P1 P2 hne
    rw [verify_password, identify_get_password_hash digest salt P2 hsalt (hdglen _ _)]
    simp only [Except.ok.injEq]
    exact beq_eq_false_iff_ne.mpr hne

/-- C9 witness: the amended theorem at `digestToy`/`saltToy` with a matching
and a differing password pair. -/
theorem C9_hash_verify_amended_witness :
    verify_password digestToy "pw1" (get_password_hash digestToy saltToy "pw1") =
      Except.ok true ∧
    verify_password digestToy "pw1" (get_password_hash digestToy saltToy "pw2") =
      Except.ok false := by
  have hdglen : ∀ s pw, (digestToy s pw).length = 31 := by
    intro s pw
    show (((pw ++ utf8 s.data).map (fun b => encB64 (b % 64)) ++
      List.replicate 31 'A').take 31).length = 31
    rw [List.length_take, List.length_append, List.length_replicate]
    omega
  constructor
  · exact (C9_hash_verify_amended digestToy saltToy (by decide) hdglen).1 "pw1" (by decide)
  · exact (C9_hash_verify_amended digestToy saltToy (by decide) hdglen).2 "pw1" "pw2"
      (by decide)

end InvAuth
